import Mathlib

/-!
# Verification of the `depends` dependency-injection library

Shallow embedding of the Go package `depends` (files `depends.go`,
`map.go`, `helpers.go`, `errors.go`).  Go base types are modelled as
naturals; a Go type is a base together with a pointer-indirection depth.
`reflect.Value`s are modelled as either a primitive value (base + payload)
or a typed pointer into an explicit heap.  The `reflect` allocations
performed by `reflect.New` are modelled by a fresh-address heap in the
interpreter state.  `sync.Once` is modelled by a three-state flag
(`idle` / `running` / `done`); re-entering a running `Once.Do` from the
same resolution tree blocks forever in Go, which the interpreter reports
as the terminal outcome `deadlock`.  The recursive resolution engine is a
fuel-indexed interpreter `run`; `timeout` means the fuel ran out.
-/

namespace Depends

/-- A Go type: a named base type plus a number of pointer indirections
(`depth = 2` models `**T`). -/
structure GoTy where
  base : Nat
  depth : Nat
  deriving DecidableEq, Repr

/-- A `reflect.Value`: either a non-pointer value (`prim`) carrying its
base type and an opaque payload, or a pointer (`ref`) to a heap cell,
tagged with the type of the pointee. -/
inductive GoVal where
  | prim (base payload : Nat)
  | ref (target : GoTy) (addr : Nat)
  deriving DecidableEq, Repr

/-- `Value.Type()`. -/
def tyOf : GoVal → GoTy
  | .prim b _ => ⟨b, 0⟩
  | .ref t _ => ⟨t.base, t.depth + 1⟩

/-- `normalizeKey` from `helpers.go`: strip all pointer levels and key on
the base type. -/
def normalizeKey (t : GoTy) : Nat := t.base

/-- Bodies of the Go functions appearing in scenarios.  A body either
returns a payload (wrapped by `callFn` in the function's declared result
type, as Go's static typing guarantees), writes a payload through a
pointer argument, panics, or does nothing. -/
inductive FnBody where
  | retConst (p : Nat)
  | retArgPayload (i : Nat)
  | writeThroughArg (i : Nat) (p : Nat)
  | panicWith (cause : Nat)
  | noop
  deriving DecidableEq, Repr

/-- A Go function value: an identity (used only to log executions), the
declared parameter types, the declared result types and a body. -/
structure GoFunc where
  fid : Nat
  params : List GoTy
  outs : List GoTy
  body : FnBody
  deriving DecidableEq, Repr

/-- An argument to `Register` / `TryInject`: an arbitrary value or a
function value. -/
inductive GoItem where
  | value (v : GoVal)
  | func (f : GoFunc)
  deriving DecidableEq, Repr

/-- The state of an entry's `sync.Once` (`map.go`): not yet fired,
currently executing `Do`, or fired. -/
inductive OnceSt where
  | idle
  | running
  | done
  deriving DecidableEq, Repr

/-- `injectableValue` from `map.go`.  `itemMaker` stores the registering
context together with the registered producer function (the Go closure
captures `ctx`); `item` is the realized (normalized) value, `none`
standing for the zero `reflect.Value`. -/
structure Entry where
  itemMaker : Option (Nat × GoFunc)
  item : Option GoVal
  once : OnceSt
  deriving DecidableEq, Repr

/-- A `Context`'s own data: parent pointer and the `syncMap` store. -/
structure CtxData where
  parent : Option Nat
  store : List (Nat × Entry)
  deriving DecidableEq, Repr

/-- Global interpreter state: the heap of `reflect.New` cells, the
context table, and a log of executed function ids (newest last). -/
structure St where
  heap : List (Nat × GoVal)
  nextAddr : Nat
  ctxs : List (Nat × CtxData)
  nextCtx : Nat
  calls : List Nat
  deriving DecidableEq, Repr

/-- First-match association-list lookup (models map lookup; later `put`s
prepend, so the first match is the most recent write). -/
def lookupA {α : Type} : List (Nat × α) → Nat → Option α
  | [], _ => none
  | (k, v) :: rest, k' => if k' = k then some v else lookupA rest k'

/-- Update every binding of a key in place (used for entry/cell updates;
never inserts, so the key set is unchanged). -/
def setA {α : Type} (l : List (Nat × α)) (k : Nat) (v : α) : List (Nat × α) :=
  l.map (fun p => if p.1 = k then (k, v) else p)

/-- `reflect.New`: allocate a fresh heap cell holding `v`, return its
address. -/
def alloc (st : St) (v : GoVal) : St × Nat :=
  ({ st with heap := (st.nextAddr, v) :: st.heap, nextAddr := st.nextAddr + 1 },
   st.nextAddr)

/-- Overwrite a heap cell (a write through a pointer). -/
def writeH (st : St) (a : Nat) (v : GoVal) : St :=
  { st with heap := setA st.heap a v }

def lookupCtx (st : St) (c : Nat) : Option CtxData := lookupA st.ctxs c

/-- Replace the entry stored for `key` in context `c`. -/
def setEntry (st : St) (c : Nat) (key : Nat) (e : Entry) : St :=
  match lookupCtx st c with
  | none => st
  | some cd => { st with ctxs := setA st.ctxs c { cd with store := setA cd.store key e } }

/-- Deref a value `n` times through the heap (each step is
`reflect.Value.Elem`); stops early at a non-pointer. -/
def derefN (h : List (Nat × GoVal)) : Nat → GoVal → GoVal
  | 0, v => v
  | n + 1, v =>
    match v with
    | .prim b p => .prim b p
    | .ref t a =>
      match lookupA h a with
      | some w => derefN h n w
      | none => .ref t a

/-- `normalizeValue` from `helpers.go` (the version cited by the spec):
fully dereference, then wrap the result in exactly one fresh pointer so
that a mutable reference can always be handed out. -/
def normalizeValue (st : St) (v : GoVal) : St × GoVal :=
  let w := derefN st.heap (tyOf v).depth v
  let (st', a) := alloc st w
  (st', .ref (tyOf w) a)

/-- The error taxonomy of `errors.go`.  `panicInFunction` is the
`ErrorPanicInFunction` wrapper: its construction site is
`depends.go` (`outErr = ErrorPanicInFunction{e}`); the struct
declaration itself is absent from the sources, so its single field is
modelled from the spec: a *PanicInFunction* condition carrying the
original cause.  `typeNotRegistered` carries the normalized base type
and the 1-indexed argument position (0 until the caller fills it in). -/
inductive Err where
  | functionNotProvided
  | typeNotRegistered (base : Nat) (pos : Nat)
  | circularInject (chain : List Nat)
  | panicInFunction (cause : Nat)
  | denormalize (src tgt : GoTy)
  deriving DecidableEq, Repr

/-- The inner dereferencing loop of `denormalizeValue`: repeatedly
`Elem` and return as soon as the type matches the target. -/
def derefFind (h : List (Nat × GoVal)) : Nat → GoVal → GoTy → Option GoVal
  | 0, _, _ => none
  | n + 1, v, t =>
    match v with
    | .prim _ _ => none
    | .ref _ a =>
      match lookupA h a with
      | some w => if tyOf w = t then some w else derefFind h n w t
      | none => none

/-- The indirection-adding loop of `denormalizeValue`: wrap in a fresh
pointer up to `n` times (the source uses `for i := 0; i < 50; i++`),
returning as soon as the type matches. -/
def addLoop (st : St) (v : GoVal) (t : GoTy) : Nat → St × Option GoVal
  | 0 => (st, none)
  | n + 1 =>
    let (st', a) := alloc st v
    let v' := GoVal.ref (tyOf v) a
    if tyOf v' = t then (st', some v') else addLoop st' v' t n

/-- `denormalizeValue` from `helpers.go`: reshape a stored value to the
exact type the caller requested. -/
def denormalizeValue (st : St) (v : GoVal) (t : GoTy) : St × Except Err GoVal :=
  if tyOf v = t then (st, .ok v)
  else
    match derefFind st.heap (tyOf v).depth v t with
    | some w => (st, .ok w)
    | none =>
      match addLoop st v t 50 with
      | (st', some w) => (st', .ok w)
      | (st', none) => (st', .error (.denormalize (tyOf v) t))

/-- Follow a pointer chain down to the final depth-0 pointer; returns
its pointee type and address.  Used to model `*x = v`, `**x = v`, … -/
def lastRef (h : List (Nat × GoVal)) : Nat → GoVal → Option (GoTy × Nat)
  | _, .prim _ _ => none
  | 0, .ref t a => if t.depth = 0 then some (t, a) else none
  | n + 1, .ref t a =>
    if t.depth = 0 then some (t, a)
    else
      match lookupA h a with
      | some w => lastRef h n w
      | none => none

/-- Read the primitive value at the end of a value's pointer chain. -/
def readP (st : St) (v : GoVal) : Option (Nat × Nat) :=
  match derefN st.heap (tyOf v).depth v with
  | .prim b p => some (b, p)
  | .ref _ _ => none

/-- Execute a function body.  Returns the new state and either a panic
cause or a result payload.  The function's execution is logged. -/
def runBody (st : St) (args : List GoVal) : FnBody → St × Except Nat Nat
  | .retConst p => (st, .ok p)
  | .retArgPayload i =>
    match readP st (args.getD i (.prim 0 0)) with
    | some (_, p) => (st, .ok p)
    | none => (st, .ok 0)
  | .writeThroughArg i p =>
    match lastRef st.heap (tyOf (args.getD i (.prim 0 0))).depth
        (args.getD i (.prim 0 0)) with
    | some (t, addr) => (writeH st addr (.prim t.base p), .ok 0)
    | none => (st, .ok 0)
  | .panicWith c => (st, .error c)
  | .noop => (st, .ok 0)

/-- `fnVal.Call(args)`: log the call, run the body, and package the
payload in the declared result type (Go's static typing guarantees a
function returns values of its declared result types). -/
def callFn (st : St) (fn : GoFunc) (args : List GoVal) : St × Except Nat (List GoVal) :=
  let st0 := { st with calls := st.calls ++ [fn.fid] }
  match runBody st0 args fn.body with
  | (st1, .error c) => (st1, .error c)
  | (st1, .ok p) =>
    match fn.outs with
    | [] => (st1, .ok [])
    | t :: _ => (st1, .ok [.prim t.base p])

/-- A pending interpreter request: `resolve` is `getInjectable`,
`inject` is `injectIntoFunction`, `collect` is its argument loop
(`acc` = already-collected arguments, `pos` = current 0-based index). -/
inductive Req where
  | resolve (c : Nat) (chain : List Nat) (ty : GoTy)
  | inject (c : Nat) (chain : List Nat) (recv : Option GoVal) (item : GoItem)
  | collect (c : Nat) (chain : List Nat) (fn : GoFunc) (acc : List GoVal)
      (ps : List GoTy) (pos : Nat)

/-- Interpreter results: `one` from `resolve`, `many` from `inject`. -/
inductive RVal where
  | one (v : GoVal)
  | many (vs : List GoVal)
  deriving DecidableEq, Repr

/-- Terminal interpreter outcomes.  `deadlock` models re-entering an
entry's `sync.Once.Do` from within its own `Do` (the goroutine blocks
forever); `timeout` means the step fuel ran out; `stuck` marks states
the Go program cannot reach from the public API. -/
inductive Out where
  | ok (s : St) (v : RVal)
  | err (s : St) (e : Err)
  | deadlock
  | timeout
  | stuck
  deriving DecidableEq, Repr

/-- Lift a `denormalizeValue` result to an interpreter outcome. -/
def denormOut (st : St) (v : GoVal) (t : GoTy) : Out :=
  match denormalizeValue st v t with
  | (st', .ok w) => .ok st' (.one w)
  | (st', .error e) => .err st' e

/-- The resolution engine (`getInjectable` / `injectIntoFunction` from
`depends.go`), as a fuel-indexed interpreter.  Every recursive call
consumes one unit of fuel.  Faithful to the source, the chain passed to
a producer (`arg.itemMaker(from)`) is the caller's chain *unextended*,
and a nested resolution that reaches an entry whose `Once` is running
deadlocks. -/
def run : Nat → Req → St → Out
  | 0, _, _ => .timeout
  | fuel + 1, .resolve c chain ty, st =>
    let key := normalizeKey ty
    match lookupCtx st c with
    | none => .stuck
    | some cd =>
      match lookupA cd.store key with
      | none =>
        -- delegate to a parent Context if one exists, else error:
        match cd.parent with
        | some p => run fuel (.resolve p chain ty) st
        | none => .err st (.typeNotRegistered key 0)
      | some entry =>
        match entry.once with
        | .done =>
          match entry.item with
          | some iv => denormOut st iv ty
          | none => .stuck
        | .running => .deadlock
        | .idle =>
          match entry.itemMaker with
          | none =>
            -- Once.Do with a trivial body: fires and marks done.
            let st1 := setEntry st c key { entry with once := .done }
            match entry.item with
            | some iv => denormOut st1 iv ty
            | none => .stuck
          | some (pc, fn) =>
            if key ∈ chain then
              -- initErr is set inside Do, so the Once still fires.
              let st1 := setEntry st c key { entry with once := .done }
              .err st1 (.circularInject (chain ++ [key]))
            else
              let st1 := setEntry st c key { entry with once := .running }
              match run fuel (.inject pc chain none (.func fn)) st1 with
              | .ok st2 (.many (v0 :: _)) =>
                let (st3, nv) := normalizeValue st2 v0
                let st4 := setEntry st3 c key ⟨entry.itemMaker, some nv, .done⟩
                denormOut st4 nv ty
              | .ok _ (.many []) => .stuck
              | .ok _ (.one _) => .stuck
              | .err st2 e =>
                -- item is assigned the zero Value, the Once fires,
                -- and the error is propagated.
                let st3 := setEntry st2 c key { entry with once := .done }
                .err st3 e
              | .deadlock => .deadlock
              | .timeout => .timeout
              | .stuck => .stuck
  | fuel + 1, .inject c chain recv item, st =>
    match item with
    | .value _ => .err st .functionNotProvided
    | .func fn =>
      let args0 := recv.toList
      run fuel (.collect c chain fn args0 (fn.params.drop args0.length) args0.length) st
  | fuel + 1, .collect c chain fn acc ps pos, st =>
    match ps with
    | [] =>
      -- all arguments resolved: perform the call, recovering panics.
      match callFn st fn acc with
      | (st1, .error cause) => .err st1 (.panicInFunction cause)
      | (st1, .ok outs) => .ok st1 (.many outs)
    | ty :: rest =>
      match run fuel (.resolve c chain ty) st with
      | .ok st1 (.one v) => run fuel (.collect c chain fn (acc ++ [v]) rest (pos + 1)) st1
      | .ok _ (.many _) => .stuck
      | .err st1 e =>
        match e with
        | .typeNotRegistered b _ => .err st1 (.typeNotRegistered b (pos + 1))
        | _ => .err st1 e
      | .deadlock => .deadlock
      | .timeout => .timeout
      | .stuck => .stuck

/-- `New()`: create a fresh root `Context`. -/
def newCtx (st : St) : St × Nat :=
  ({ st with ctxs := (st.nextCtx, ⟨none, []⟩) :: st.ctxs, nextCtx := st.nextCtx + 1 },
   st.nextCtx)

/-- `ctx.Child()`: create a context whose parent is `c`. -/
def childCtx (st : St) (c : Nat) : St × Nat :=
  ({ st with ctxs := (st.nextCtx, ⟨some c, []⟩) :: st.ctxs, nextCtx := st.nextCtx + 1 },
   st.nextCtx)

/-- Overwrite-or-insert a store binding (`syncMap.put`: unconditional
overwrite, last writer wins). -/
def putEntry (st : St) (c : Nat) (key : Nat) (e : Entry) : St :=
  match lookupCtx st c with
  | none => st
  | some cd => { st with ctxs := setA st.ctxs c { cd with store := (key, e) :: cd.store } }

/-- `registerOne` from `depends.go`.  `none` models the `panic` raised
when a registered function does not return exactly one value; otherwise
a function is stored as a pending producer keyed by its result's
normalized type, and a plain value is normalized and stored realized. -/
def registerOne (st : St) (c : Nat) (item : GoItem) : Option St :=
  match item with
  | .func fn =>
    match fn.outs with
    | [o] => some (putEntry st c (normalizeKey o) ⟨some (c, fn), none, .idle⟩)
    | _ => none
  | .value v =>
    let (st1, nv) := normalizeValue st v
    some (putEntry st1 c (normalizeKey (tyOf v)) ⟨none, some nv, .idle⟩)

/-- `Register` for scenario building: panics are not expected, so a
panicking registration leaves the state unchanged. -/
def register (st : St) (c : Nat) (item : GoItem) : St :=
  (registerOne st c item).getD st

/-- `ctx.TryInject(fn)`: run the invocation adapter with an empty chain
and no receiver, and return only the error (as the Go function does). -/
def tryInjectErr (fuel : Nat) (st : St) (c : Nat) (item : GoItem) : Option Err :=
  match run fuel (.inject c [] none item) st with
  | .err _ e => some e
  | _ => none

/-- `typeName` from `helpers.go`: one star per indirection level, then
the base type's name (here: its numeral). -/
def typeName (t : GoTy) : String :=
  String.join (List.replicate t.depth "*") ++ toString t.base

/-- The `Error()` methods of `errors.go` (message text abridged; the
`panicInFunction` message is modelled from the spec, its `Error()`
method being absent from the sources). -/
def errMsg : Err → String
  | .functionNotProvided => "Inject/TryInject require a function to be provided"
  | .typeNotRegistered b pos =>
    "Injection of argument " ++ toString pos ++ " failed since the type " ++
      toString b ++ " has not been registered"
  | .circularInject chain =>
    "Injection cycle: " ++ String.intercalate " -> " (chain.map toString)
  | .panicInFunction cause => "panic in injected function: " ++ toString cause
  | .denormalize src tgt =>
    "failed to denormalize value of type " ++ typeName src ++
      " to expected type " ++ typeName tgt

/-- `ctx.Inject(fn)`: call `TryInject` and, if it returned an error,
panic with the error's message.  `some msg` models the panic. -/
def injectPanic (fuel : Nat) (st : St) (c : Nat) (item : GoItem) : Option String :=
  (tryInjectErr fuel st c item).map errMsg

/-! ## Scenario states and well-formedness predicates -/

/-- The empty process state. -/
def st0 : St := ⟨[], 0, [], 0, []⟩

/-- Cycle scenario: a producer of base type `0` that requires base
type `1`. -/
def prodA : GoFunc := ⟨1, [⟨1, 0⟩], [⟨0, 0⟩], .retConst 7⟩

/-- Cycle scenario: a producer of base type `1` that requires base
type `0`. -/
def prodB : GoFunc := ⟨2, [⟨0, 0⟩], [⟨1, 0⟩], .retConst 8⟩

/-- A function requesting base type `0`. -/
def needA : GoFunc := ⟨3, [⟨0, 0⟩], [], .noop⟩

/-- The cycle scenario: a fresh context (id `0`) with the two mutually
dependent producers registered. -/
def c1st : St :=
  let (s, c) := newCtx st0
  register (register s c (.func prodA)) c (.func prodB)

/-- Parent/child scenario: parent context `0` registers base `0 ↦ pf`
and base `1 ↦ pg`; child context `1` registers base `0 ↦ cf` (shadowing
the parent) and base `2 ↦ ph` (child-only). -/
def c4st (pf pg cf ph : Nat) : St :=
  let (s, par) := newCtx st0
  let s := register (register s par (.value (.prim 0 pf))) par (.value (.prim 1 pg))
  let (s, ch) := childCtx s par
  register (register s ch (.value (.prim 0 cf))) ch (.value (.prim 2 ph))

/-- A producer of base type `0` returning the constant payload `p`. -/
def mkProd (fid p : Nat) : GoFunc := ⟨fid, [], [⟨0, 0⟩], .retConst p⟩

/-- Overwrite scenario: value `p1` then value `p2` for base `0`. -/
def c6vv (p1 p2 : Nat) : St :=
  let (s, c) := newCtx st0
  register (register s c (.value (.prim 0 p1))) c (.value (.prim 0 p2))

/-- Overwrite scenario: value `p1` then a producer of `p2` for base `0`. -/
def c6vp (p1 p2 : Nat) : St :=
  let (s, c) := newCtx st0
  register (register s c (.value (.prim 0 p1))) c (.func (mkProd 6 p2))

/-- Overwrite scenario: a producer of `p1` then value `p2` for base `0`. -/
def c6pv (p1 p2 : Nat) : St :=
  let (s, c) := newCtx st0
  register (register s c (.func (mkProd 6 p1))) c (.value (.prim 0 p2))

/-- Overwrite scenario: producers of `p1` then of `p2` for base `0`. -/
def c6pp (p1 p2 : Nat) : St :=
  let (s, c) := newCtx st0
  register (register s c (.func (mkProd 6 p1))) c (.func (mkProd 7 p2))

/-- A context with a single registered value `base 0 ↦ p`. -/
def c7st (p : Nat) : St :=
  let (s, c) := newCtx st0
  register s c (.value (.prim 0 p))

/-- Build a pointer chain of length `r` ending in `prim b p` (the Go
value `&&…&v` with `r` ampersands), allocating the intermediate cells. -/
def mkChain (b p : Nat) : St → Nat → St × GoVal
  | st, 0 => (st, .prim b p)
  | st, r + 1 =>
    let (st1, v) := mkChain b p st r
    let (st2, a) := alloc st1 v
    (st2, .ref (tyOf v) a)

/-- Indirection scenario: context `0` with the base-`0` value `p`
registered through `r` levels of pointer. -/
def c5st (r p : Nat) : St :=
  let (s, c) := newCtx st0
  let (s, v) := mkChain 0 p s r
  register s c (.value v)

/-- A function taking base `0` at indirection depth `d` and writing the
payload `q` through that pointer (`*x = q`, `**x = q`, …). -/
def writerFn (d q : Nat) : GoFunc := ⟨8, [⟨0, d⟩], [], .writeThroughArg 0 q⟩

/-- Registration-context scenario: parent `0` holds base `0 ↦ pt` and a
producer for base `1` (registered on the parent) that returns the
payload of its base-`0` argument; child `1` shadows base `0 ↦ ct`. -/
def c10prod : GoFunc := ⟨5, [⟨0, 0⟩], [⟨1, 0⟩], .retArgPayload 0⟩

/-- The state of the registration-context scenario. -/
def c10st (pt ct : Nat) : St :=
  let (s, par) := newCtx st0
  let s := register (register s par (.value (.prim 0 pt))) par (.func c10prod)
  let (s, ch) := childCtx s par
  register s ch (.value (.prim 0 ct))

/-- Producer-memoization scenario (the spec's example): `Foo = base 0`
registered as the value `100`, `makeBar : Foo → Bar` (`Bar = base 1`)
registered as a producer returning its argument's payload. -/
def makeBar : GoFunc := ⟨5, [⟨0, 0⟩], [⟨1, 0⟩], .retArgPayload 0⟩

/-- The state of the producer-memoization scenario. -/
def pst : St :=
  let (s, c) := newCtx st0
  register (register s c (.value (.prim 0 100))) c (.func makeBar)

/-- The producer-memoization state after the first resolution of the
producer-backed base `1` (both entries realized, `Once` fired, producer
`5` logged once). -/
def pstAfter : St :=
  ⟨[(1, .prim 1 100), (0, .prim 0 100)], 2,
   [(0, ⟨none, [(1, ⟨some (0, makeBar), some (.ref ⟨1, 0⟩ 1), .done⟩),
                (0, ⟨none, some (.ref ⟨0, 0⟩ 0), .done⟩)]⟩)], 1, [5]⟩

/-- A context in which only `base 0 ↦ 5` is registered. -/
def c3stR : St := register (newCtx st0).1 0 (.value (.prim 0 5))

/-- `c3stR` after its base-`0` entry has been resolved once. -/
def c3stDone : St :=
  ⟨[(0, .prim 0 5)], 1,
   [(0, ⟨none, [(0, ⟨none, some (.ref ⟨0, 0⟩ 0), .done⟩)]⟩)], 1, []⟩

/-- `c7st 3` after its base-`0` entry has been resolved once. -/
def c7stDone : St :=
  ⟨[(0, .prim 0 3)], 1,
   [(0, ⟨none, [(0, ⟨none, some (.ref ⟨0, 0⟩ 0), .done⟩)]⟩)], 1, []⟩

/-- A realized entry value is canonical: exactly one indirection onto a
live heap cell holding a primitive of the matching base type.  Every
value stored by `normalizeValue` has this shape. -/
def canonVb (st : St) (v : GoVal) : Bool :=
  match v with
  | .ref t a =>
    t.depth = 0 && decide (a < st.nextAddr) &&
      (match lookupA st.heap a with
       | some (.prim b _) => b = t.base
       | _ => false)
  | .prim _ _ => false

/-- Well-formedness of a state: every realized entry value in every
context is canonical.  All states reachable from the public API satisfy
this. -/
def stWF (st : St) : Bool :=
  st.ctxs.all fun pc =>
    pc.2.store.all fun pe =>
      match pe.2.item with
      | some v => canonVb st v
      | none => true

/-- `Chain h n b p a v`: the value `v` is a well-typed pointer chain
through heap `h` (all addresses below `n`) whose final depth-0 pointer
is address `a`, a cell holding `prim b p`. -/
inductive Chain (h : List (Nat × GoVal)) (n b p a : Nat) : GoVal → Prop
  | base : a < n → lookupA h a = some (.prim b p) → Chain h n b p a (.ref ⟨b, 0⟩ a)
  | step (t : GoTy) (a' : Nat) (v : GoVal) :
      a' < n → lookupA h a' = some v → tyOf v = t → Chain h n b p a v →
      Chain h n b p a (.ref t a')

/-- `RunArgs c f st tys vs g st'`: resolving the types `tys` in order
against context `c`, starting from state `st` with fuel `f` and
consuming one unit per argument (as the interpreter's argument loop
does), succeeds with values `vs`, final state `st'` and fuel `g` left. -/
inductive RunArgs (c : Nat) : Nat → St → List GoTy → List GoVal → Nat → St → Prop
  | nil (f : Nat) (st : St) : RunArgs c f st [] [] f st
  | cons {f : Nat} {st : St} {ty : GoTy} {rest : List GoTy} {st1 : St} {v : GoVal}
      {vs : List GoVal} {g : Nat} {st2 : St} :
      run f (.resolve c [] ty) st = .ok st1 (.one v) →
      RunArgs c f st1 rest vs g st2 →
      RunArgs c (f + 1) st (ty :: rest) (v :: vs) g st2

/-- `NotFound key f st c`: the key is registered neither in context `c`
nor in any of its ancestors, and `f` is enough fuel to walk the whole
parent chain. -/
inductive NotFound (key : Nat) : Nat → St → Nat → Prop
  | root {f : Nat} {st : St} {c : Nat} {cd : CtxData} :
      lookupCtx st c = some cd → lookupA cd.store key = none → cd.parent = none →
      NotFound key (f + 1) st c
  | step {f : Nat} {st : St} {c : Nat} {cd : CtxData} {p : Nat} :
      lookupCtx st c = some cd → lookupA cd.store key = none → cd.parent = some p →
      NotFound key f st p → NotFound key (f + 1) st c

/-- Observational equivalence of the context graphs of two states: same
contexts, same parents, same key presence.  The interpreter only ever
replaces existing entries, so it preserves this relation. -/
def PresEq (st st' : St) : Prop :=
  ∀ c cd, lookupCtx st c = some cd →
    ∃ cd', lookupCtx st' c = some cd' ∧ cd'.parent = cd.parent ∧
      ∀ k, (lookupA cd'.store k).isSome = (lookupA cd.store k).isSome

/-- The state carried by a terminal `ok` or `err` outcome. -/
def outSt : Out → Option St
  | .ok s _ => some s
  | .err s _ => some s
  | _ => none

/-! ## Association list and state-combinator lemmas -/

theorem lookupA_cons {α : Type} (a : Nat) (b : α) (tl : List (Nat × α)) (k : Nat) :
    lookupA ((a, b) :: tl) k = if k = a then some b else lookupA tl k := rfl

theorem setA_cons {α : Type} (a : Nat) (b : α) (tl : List (Nat × α)) (k : Nat) (v : α) :
    setA ((a, b) :: tl) k v = (if a = k then (k, v) else (a, b)) :: setA tl k v := rfl

theorem lookupA_setA {α : Type} (l : List (Nat × α)) (k k' : Nat) (v : α) :
    lookupA (setA l k v) k' =
      if k' = k then (lookupA l k).map (fun _ => v) else lookupA l k' := by
  induction l with
  | nil => simp [setA, lookupA]
  | cons hd tl ih =>
    obtain ⟨a, b⟩ := hd
    rw [setA_cons]
    by_cases hak : a = k
    · subst hak
      rw [if_pos rfl]
      by_cases hk : k' = a
      · subst hk
        simp [lookupA_cons]
      · simp [lookupA_cons, hk, ih]
    · rw [if_neg hak]
      by_cases hk : k' = a
      · subst hk
        simp [lookupA_cons, hak]
      · have hka : ¬k = a := fun h => hak h.symm
        simp [lookupA_cons, hk, hka, ih]

theorem lookupA_mem {α : Type} {l : List (Nat × α)} {k : Nat} {x : α}
    (h : lookupA l k = some x) : (k, x) ∈ l := by
  induction l with
  | nil => simp [lookupA] at h
  | cons hd tl ih =>
    obtain ⟨a, b⟩ := hd
    by_cases hk : k = a
    · subst hk
      simp [lookupA] at h
      simp [h]
    · simp [lookupA, hk] at h
      exact List.mem_cons_of_mem _ (ih h)

/-! ## Pointer-chain lemmas -/

theorem chain_isRef {h : List (Nat × GoVal)} {n b p a : Nat} {v : GoVal}
    (hc : Chain h n b p a v) : ∃ t a', v = .ref t a' := by
  cases hc with
  | base _ _ => exact ⟨_, _, rfl⟩
  | step t a' v' _ _ _ _ => exact ⟨_, _, rfl⟩

theorem chain_derefN {h : List (Nat × GoVal)} {n b p a : Nat} {v : GoVal}
    (hc : Chain h n b p a v) : derefN h (tyOf v).depth v = .prim b p := by
  induction hc with
  | base ha hl => simp [tyOf, derefN, hl]
  | step t a' v' ha hl hty hc ih =>
    simp only [tyOf, derefN, hl]
    rw [← hty]
    exact ih

theorem chain_lastRef {h : List (Nat × GoVal)} {n b p a : Nat} {v : GoVal}
    (hc : Chain h n b p a v) : lastRef h (tyOf v).depth v = some (⟨b, 0⟩, a) := by
  induction hc with
  | base ha hl => simp [tyOf, lastRef]
  | step t a' v' ha hl hty hc ih =>
    obtain ⟨t', a'', hv'⟩ := chain_isRef hc
    have hne : t.depth ≠ 0 := by
      rw [← hty, hv']
      simp [tyOf]
    show lastRef h (t.depth + 1) (GoVal.ref t a') = some (⟨b, 0⟩, a)
    rw [show lastRef h (t.depth + 1) (GoVal.ref t a')
          = if t.depth = 0 then some (t, a')
            else
              match lookupA h a' with
              | some w => lastRef h t.depth w
              | none => none from rfl]
    rw [if_neg hne, hl]
    show lastRef h t.depth v' = _
    rw [← hty]
    exact ih

theorem chain_frame {h h' : List (Nat × GoVal)} {n n' b p a : Nat} {v : GoVal}
    (hc : Chain h n b p a v) (hn : n ≤ n')
    (hl : ∀ x, x < n → lookupA h' x = lookupA h x) : Chain h' n' b p a v := by
  induction hc with
  | base ha hla => exact .base (lt_of_lt_of_le ha hn) ((hl _ ha).trans hla)
  | step t a' v' ha hla hty hc ih =>
    exact .step t a' v' (lt_of_lt_of_le ha hn) ((hl _ ha).trans hla) hty ih

theorem chain_bottom {h : List (Nat × GoVal)} {n b p a : Nat} {v : GoVal}
    (hc : Chain h n b p a v) : lookupA h a = some (.prim b p) := by
  induction hc with
  | base _ hl => exact hl
  | step _ _ _ _ _ _ _ ih => exact ih

theorem chain_write {h : List (Nat × GoVal)} {n b p a : Nat} {v : GoVal}
    (hc : Chain h n b p a v) (q : Nat) :
    Chain (setA h a (.prim b q)) n b q a v := by
  induction hc with
  | base ha hla =>
    refine .base ha ?_
    rw [lookupA_setA, if_pos rfl, hla]
    rfl
  | step t a' v' ha hla hty hc ih =>
    have hne : a' ≠ a := by
      intro hEq
      subst hEq
      obtain ⟨t', a'', hv'⟩ := chain_isRef hc
      have hbase : lookupA h a' = some (.prim b p) := chain_bottom hc
      rw [hla, hv'] at hbase
      exact GoVal.noConfusion (Option.some.inj hbase)
    exact .step t a' v' ha (by rw [lookupA_setA, if_neg hne]; exact hla) hty ih

/-! ## Denormalization lemmas -/

theorem addLoop_ok (b p a : Nat) :
    ∀ (n : Nat) (st : St) (v : GoVal) (j d : Nat),
      tyOf v = ⟨b, j + 1⟩ → Chain st.heap st.nextAddr b p a v →
      j + 1 < d → d ≤ j + 1 + n →
      ∃ st' w, addLoop st v ⟨b, d⟩ n = (st', some w) ∧ tyOf w = ⟨b, d⟩ ∧
        Chain st'.heap st'.nextAddr b p a w ∧
        st'.ctxs = st.ctxs ∧ st'.calls = st.calls ∧ st'.nextCtx = st.nextCtx ∧
        st.nextAddr ≤ st'.nextAddr ∧
        (∀ x, x < st.nextAddr → lookupA st'.heap x = lookupA st.heap x) := by
  intro n
  induction n with
  | zero => intro st v j d _ _ h1 h2; omega
  | succ n ih =>
    intro st v j d hty hch h1 h2
    have hfr : ∀ x, x < st.nextAddr →
        lookupA ((st.nextAddr, v) :: st.heap) x = lookupA st.heap x := by
      intro x hx
      rw [lookupA_cons, if_neg (by omega)]
    have hch' : Chain ((st.nextAddr, v) :: st.heap) (st.nextAddr + 1) b p a
        (.ref (tyOf v) st.nextAddr) := by
      refine .step (tyOf v) st.nextAddr v (by omega) ?_ rfl
        (chain_frame hch (by omega) hfr)
      rw [lookupA_cons, if_pos rfl]
    have htyv' : tyOf (GoVal.ref (tyOf v) st.nextAddr) = ⟨b, j + 2⟩ := by
      show (⟨(tyOf v).base, (tyOf v).depth + 1⟩ : GoTy) = ⟨b, j + 2⟩
      rw [hty]
    have unfold_eq : addLoop st v ⟨b, d⟩ (n + 1)
        = if tyOf (GoVal.ref (tyOf v) st.nextAddr) = (⟨b, d⟩ : GoTy) then
            (⟨(st.nextAddr, v) :: st.heap, st.nextAddr + 1, st.ctxs, st.nextCtx,
              st.calls⟩, some (GoVal.ref (tyOf v) st.nextAddr))
          else addLoop ⟨(st.nextAddr, v) :: st.heap, st.nextAddr + 1, st.ctxs,
            st.nextCtx, st.calls⟩ (GoVal.ref (tyOf v) st.nextAddr) ⟨b, d⟩ n := rfl
    by_cases hd : j + 2 = d
    · refine ⟨⟨(st.nextAddr, v) :: st.heap, st.nextAddr + 1, st.ctxs, st.nextCtx,
        st.calls⟩, GoVal.ref (tyOf v) st.nextAddr, ?_, by rw [htyv', hd], hch', rfl,
        rfl, rfl, Nat.le_succ _, hfr⟩
      rw [unfold_eq, if_pos (by rw [htyv', hd])]
    · rw [unfold_eq, if_neg (by rw [htyv']; intro hEq; exact hd (congrArg GoTy.depth hEq))]
      obtain ⟨st', w, heq, hw1, hw2, hw3, hw4, hw5, hw6, hw7⟩ :=
        ih ⟨(st.nextAddr, v) :: st.heap, st.nextAddr + 1, st.ctxs, st.nextCtx, st.calls⟩
          (GoVal.ref (tyOf v) st.nextAddr) (j + 1) d htyv' hch' (by omega) (by omega)
      refine ⟨st', w, heq, hw1, hw2, hw3, hw4, hw5,
        le_trans (Nat.le_succ _) hw6, ?_⟩
      intro x hx
      rw [hw7 x (Nat.lt_succ_of_lt hx)]
      exact hfr x hx

theorem addLoop_none (b : Nat) :
    ∀ (n : Nat) (st : St) (v : GoVal) (j : Nat) (t : GoTy),
      tyOf v = ⟨b, j⟩ → (∀ i, i < n → GoTy.mk b (j + 1 + i) ≠ t) →
      ∃ st', addLoop st v t n = (st', none) := by
  intro n
  induction n with
  | zero => intro st v j t _ _; exact ⟨st, rfl⟩
  | succ n ih =>
    intro st v j t hty hne
    have unfold_eq : addLoop st v t (n + 1)
        = if tyOf (GoVal.ref (tyOf v) st.nextAddr) = t then
            (⟨(st.nextAddr, v) :: st.heap, st.nextAddr + 1, st.ctxs, st.nextCtx,
              st.calls⟩, some (GoVal.ref (tyOf v) st.nextAddr))
          else addLoop ⟨(st.nextAddr, v) :: st.heap, st.nextAddr + 1, st.ctxs,
            st.nextCtx, st.calls⟩ (GoVal.ref (tyOf v) st.nextAddr) t n := rfl
    have htyv' : tyOf (GoVal.ref (tyOf v) st.nextAddr) = ⟨b, j + 1⟩ := by
      show (⟨(tyOf v).base, (tyOf v).depth + 1⟩ : GoTy) = ⟨b, j + 1⟩
      rw [hty]
    rw [unfold_eq, if_neg (by rw [htyv']; exact (by simpa using hne 0 (by omega)))]
    refine ih _ _ (j + 1) t htyv' ?_
    intro i hi
    have := hne (i + 1) (by omega)
    simpa [show j + 1 + (i + 1) = j + 1 + 1 + i by omega] using this

theorem denorm_canon (st : St) (b p a d : Nat) (ha : a < st.nextAddr)
    (hl : lookupA st.heap a = some (.prim b p)) (hd : d ≤ 51) :
    ∃ st' w, denormalizeValue st (.ref ⟨b, 0⟩ a) ⟨b, d⟩ = (st', .ok w) ∧
      tyOf w = ⟨b, d⟩ ∧
      (d = 0 → st' = st ∧ w = .prim b p) ∧
      (1 ≤ d → Chain st'.heap st'.nextAddr b p a w) ∧
      st'.ctxs = st.ctxs ∧ st'.calls = st.calls ∧ st'.nextCtx = st.nextCtx ∧
      st.nextAddr ≤ st'.nextAddr ∧
      (∀ x, x < st.nextAddr → lookupA st'.heap x = lookupA st.heap x) ∧
      readP st' w = some (b, p) := by
  have hderef : derefFind st.heap 1 (.ref ⟨b, 0⟩ a) ⟨b, d⟩
      = if tyOf (GoVal.prim b p) = (⟨b, d⟩ : GoTy) then some (.prim b p)
        else derefFind st.heap 0 (.prim b p) ⟨b, d⟩ := by
    show (match lookupA st.heap a with
          | some w => if tyOf w = (⟨b, d⟩ : GoTy) then some w
              else derefFind st.heap 0 w ⟨b, d⟩
          | none => none) = _
    rw [hl]
  have hquick : denormalizeValue st (.ref ⟨b, 0⟩ a) ⟨b, d⟩
      = if (⟨b, 1⟩ : GoTy) = ⟨b, d⟩ then (st, .ok (.ref ⟨b, 0⟩ a))
        else match derefFind st.heap 1 (.ref ⟨b, 0⟩ a) ⟨b, d⟩ with
          | some w => (st, .ok w)
          | none =>
            match addLoop st (.ref ⟨b, 0⟩ a) ⟨b, d⟩ 50 with
            | (st', some w) => (st', .ok w)
            | (st', none) => (st', .error (.denormalize ⟨b, 1⟩ ⟨b, d⟩)) := rfl
  rcases d with _ | (_ | dd)
  · refine ⟨st, .prim b p, ?_, rfl, fun _ => ⟨rfl, rfl⟩, fun h => absurd h (by omega),
      rfl, rfl, rfl, le_refl _, fun _ _ => rfl, rfl⟩
    rw [hquick, if_neg (by simp), hderef,
      if_pos (show tyOf (GoVal.prim b p) = (⟨b, 0⟩ : GoTy) from rfl)]
  · refine ⟨st, .ref ⟨b, 0⟩ a, ?_, rfl, fun h => absurd h (by omega),
      fun _ => .base ha hl, rfl, rfl, rfl, le_refl _, fun _ _ => rfl, ?_⟩
    · rw [hquick, if_pos rfl]
    · show (match derefN st.heap 1 (GoVal.ref ⟨b, 0⟩ a) with
            | .prim bb pp => some (bb, pp)
            | .ref _ _ => none) = some (b, p)
      rw [show derefN st.heap 1 (GoVal.ref ⟨b, 0⟩ a)
            = (match lookupA st.heap a with
               | some w => derefN st.heap 0 w
               | none => .ref ⟨b, 0⟩ a) from rfl, hl]
      rfl
  · obtain ⟨st', w, heq, hw1, hw2, hw3, hw4, hw5, hw6, hw7⟩ :=
      addLoop_ok b p a 50 st (.ref ⟨b, 0⟩ a) 0 (dd + 2) rfl (.base ha hl)
        (by omega) (by omega)
    refine ⟨st', w, ?_, hw1, fun h => absurd h (by omega), fun _ => hw2, hw3, hw4,
      hw5, hw6, hw7, ?_⟩
    · have hne1 : (⟨b, 1⟩ : GoTy) ≠ (⟨b, dd + 2⟩ : GoTy) := by
        intro hEq
        have h2 : (1 : Nat) = dd + 2 := congrArg GoTy.depth hEq
        omega
      have hne2 : tyOf (GoVal.prim b p) ≠ (⟨b, dd + 2⟩ : GoTy) := by
        intro hEq
        have h2 : (0 : Nat) = dd + 2 := congrArg GoTy.depth hEq
        omega
      rw [hquick, if_neg hne1, hderef, if_neg hne2]
      show (match derefFind st.heap 0 (GoVal.prim b p) ⟨b, dd + 2⟩ with
            | some w => (st, Except.ok w)
            | none =>
              match addLoop st (.ref ⟨b, 0⟩ a) ⟨b, dd + 2⟩ 50 with
              | (st', some w) => (st', Except.ok w)
              | (st', none) =>
                (st', Except.error (Err.denormalize ⟨b, 1⟩ ⟨b, dd + 2⟩))) = _
      rw [show derefFind st.heap 0 (GoVal.prim b p) ⟨b, dd + 2⟩ = none from rfl, heq]
    · show (match derefN st'.heap (tyOf w).depth w with
            | .prim bb pp => some (bb, pp)
            | .ref _ _ => none) = some (b, p)
      rw [chain_derefN hw2]

theorem denorm_canon_fail (st : St) (b p a : Nat) (t : GoTy)
    (hl : lookupA st.heap a = some (.prim b p))
    (ht : t.base ≠ b ∨ 52 ≤ t.depth) :
    ∃ st', denormalizeValue st (.ref ⟨b, 0⟩ a) t
      = (st', .error (.denormalize ⟨b, 1⟩ t)) := by
  have hderef : derefFind st.heap 1 (.ref ⟨b, 0⟩ a) t
      = if tyOf (GoVal.prim b p) = t then some (.prim b p)
        else derefFind st.heap 0 (.prim b p) t := by
    show (match lookupA st.heap a with
          | some w => if tyOf w = t then some w else derefFind st.heap 0 w t
          | none => none) = _
    rw [hl]
  have hquick : denormalizeValue st (.ref ⟨b, 0⟩ a) t
      = if (⟨b, 1⟩ : GoTy) = t then (st, .ok (.ref ⟨b, 0⟩ a))
        else match derefFind st.heap 1 (.ref ⟨b, 0⟩ a) t with
          | some w => (st, .ok w)
          | none =>
            match addLoop st (.ref ⟨b, 0⟩ a) t 50 with
            | (st', some w) => (st', .ok w)
            | (st', none) => (st', .error (.denormalize ⟨b, 1⟩ t)) := rfl
  obtain ⟨tb, td⟩ := t
  replace ht : tb ≠ b ∨ 52 ≤ td := ht
  have hne1 : (⟨b, 1⟩ : GoTy) ≠ ⟨tb, td⟩ := by
    intro hEq
    cases hEq
    rcases ht with hb | hdep
    · exact hb rfl
    · omega
  have hne2 : tyOf (GoVal.prim b p) ≠ (⟨tb, td⟩ : GoTy) := by
    intro hEq
    replace hEq : (⟨b, 0⟩ : GoTy) = ⟨tb, td⟩ := hEq
    cases hEq
    rcases ht with hb | hdep
    · exact hb rfl
    · omega
  obtain ⟨st', haddl⟩ := addLoop_none b 50 st (.ref ⟨b, 0⟩ a) 1 ⟨tb, td⟩ rfl
    (by
      intro i hi hEq
      cases hEq
      rcases ht with hb | hdep
      · exact hb rfl
      · omega)
  refine ⟨st', ?_⟩
  rw [hquick, if_neg hne1, hderef, if_neg hne2]
  show (match derefFind st.heap 0 (GoVal.prim b p) ⟨tb, td⟩ with
        | some w => (st, Except.ok w)
        | none =>
          match addLoop st (.ref ⟨b, 0⟩ a) ⟨tb, td⟩ 50 with
          | (st', some w) => (st', Except.ok w)
          | (st', none) => (st', Except.error (Err.denormalize ⟨b, 1⟩ ⟨tb, td⟩))) = _
  rw [show derefFind st.heap 0 (GoVal.prim b p) ⟨tb, td⟩ = none from rfl, haddl]

/-! ## Resolution-engine lemmas -/

theorem resolve_done (fuel : Nat) (st : St) (c kb d p a : Nat) (ch : List Nat)
    (cd : CtxData) (e : Entry)
    (hc : lookupCtx st c = some cd) (he : lookupA cd.store kb = some e)
    (ho : e.once = .done) (hi : e.item = some (.ref ⟨kb, 0⟩ a))
    (ha : a < st.nextAddr) (hl : lookupA st.heap a = some (.prim kb p))
    (hd : d ≤ 51) :
    ∃ st' w, run (fuel + 1) (.resolve c ch ⟨kb, d⟩) st = .ok st' (.one w) ∧
      tyOf w = ⟨kb, d⟩ ∧ readP st' w = some (kb, p) ∧
      (1 ≤ d → Chain st'.heap st'.nextAddr kb p a w) ∧
      st'.ctxs = st.ctxs ∧ st'.calls = st.calls ∧ st'.nextCtx = st.nextCtx ∧
      st.nextAddr ≤ st'.nextAddr ∧
      (∀ x, x < st.nextAddr → lookupA st'.heap x = lookupA st.heap x) := by
  obtain ⟨st', w, hde, hw1, _, hw3, hw4, hw5, hw6, hw7, hw8, hw9⟩ :=
    denorm_canon st kb p a d ha hl hd
  refine ⟨st', w, ?_, hw1, hw9, hw3, hw4, hw5, hw6, hw7, hw8⟩
  have hrun : run (fuel + 1) (.resolve c ch ⟨kb, d⟩) st
      = denormOut st (.ref ⟨kb, 0⟩ a) ⟨kb, d⟩ := by
    simp only [run, normalizeKey, hc, he, ho, hi]
  rw [hrun]
  simp only [denormOut, hde]

theorem resolve_idle_value (fuel : Nat) (st : St) (c kb d p a : Nat) (ch : List Nat)
    (cd : CtxData) (e : Entry)
    (hc : lookupCtx st c = some cd) (he : lookupA cd.store kb = some e)
    (ho : e.once = .idle) (hm : e.itemMaker = none)
    (hi : e.item = some (.ref ⟨kb, 0⟩ a))
    (ha : a < st.nextAddr) (hl : lookupA st.heap a = some (.prim kb p))
    (hd : d ≤ 51) :
    ∃ st' w, run (fuel + 1) (.resolve c ch ⟨kb, d⟩) st = .ok st' (.one w) ∧
      tyOf w = ⟨kb, d⟩ ∧ readP st' w = some (kb, p) ∧
      (1 ≤ d → Chain st'.heap st'.nextAddr kb p a w) ∧
      st'.ctxs = (setEntry st c kb { e with once := .done }).ctxs ∧
      st'.calls = st.calls ∧ st'.nextCtx = st.nextCtx ∧
      st.nextAddr ≤ st'.nextAddr ∧
      (∀ x, x < st.nextAddr → lookupA st'.heap x = lookupA st.heap x) := by
  have hse : (setEntry st c kb { e with once := .done }).heap = st.heap ∧
      (setEntry st c kb { e with once := .done }).nextAddr = st.nextAddr ∧
      (setEntry st c kb { e with once := .done }).calls = st.calls ∧
      (setEntry st c kb { e with once := .done }).nextCtx = st.nextCtx := by
    simp [setEntry, hc]
  obtain ⟨hh, hn, hcl, hnc⟩ := hse
  obtain ⟨st', w, hde, hw1, _, hw3, hw4, hw5, hw6, hw7, hw8, hw9⟩ :=
    denorm_canon (setEntry st c kb { e with once := .done }) kb p a d
      (by rw [hn]; exact ha) (by rw [hh]; exact hl) hd
  refine ⟨st', w, ?_, hw1, ?_, ?_, hw4, by rw [hw5, hcl], by rw [hw6, hnc],
    by rw [hn] at hw7; exact hw7, ?_⟩
  · have hrun : run (fuel + 1) (.resolve c ch ⟨kb, d⟩) st
        = denormOut (setEntry st c kb { e with once := .done })
            (.ref ⟨kb, 0⟩ a) ⟨kb, d⟩ := by
      simp only [run, normalizeKey, hc, he, ho, hm, hi]
    rw [hrun]
    simp only [denormOut, hde]
  · exact hw9
  · exact hw3
  · intro x hx
    rw [hw8 x (by rw [hn]; exact hx), hh]

theorem mkChain_spec (b p : Nat) : ∀ (r : Nat) (st : St),
    ∃ st' v, mkChain b p st r = (st', v) ∧ tyOf v = ⟨b, r⟩ ∧
      st'.ctxs = st.ctxs ∧ st'.calls = st.calls ∧ st'.nextCtx = st.nextCtx ∧
      st'.nextAddr = st.nextAddr + r ∧
      (∀ x, x < st.nextAddr → lookupA st'.heap x = lookupA st.heap x) ∧
      (r = 0 → st' = st ∧ v = .prim b p) ∧
      (1 ≤ r → Chain st'.heap st'.nextAddr b p st.nextAddr v) := by
  intro r
  induction r with
  | zero =>
    intro st
    exact ⟨st, .prim b p, rfl, rfl, rfl, rfl, rfl, rfl, fun _ _ => rfl,
      fun _ => ⟨rfl, rfl⟩, fun h => absurd h (by omega)⟩
  | succ r ih =>
    intro st
    obtain ⟨st1, v1, heq, hty, hctxs, hcalls, hnext, hna, hfr, hzero, hchain⟩ := ih st
    refine ⟨(⟨(st1.nextAddr, v1) :: st1.heap, st1.nextAddr + 1, st1.ctxs, st1.nextCtx,
      st1.calls⟩ : St), .ref (tyOf v1) st1.nextAddr, ?_, ?_, hctxs, hcalls, hnext,
      show st1.nextAddr + 1 = st.nextAddr + (r + 1) by omega, ?_,
      fun h => absurd h (by omega), fun _ => ?_⟩
    · show (match mkChain b p st r with
            | (st1, v) =>
              ((⟨(st1.nextAddr, v) :: st1.heap, st1.nextAddr + 1, st1.ctxs,
                st1.nextCtx, st1.calls⟩ : St), GoVal.ref (tyOf v) st1.nextAddr)) = _
      rw [heq]
    · show (⟨(tyOf v1).base, (tyOf v1).depth + 1⟩ : GoTy) = ⟨b, r + 1⟩
      rw [hty]
    · intro x hx
      rw [lookupA_cons, if_neg (by omega), hfr x hx]
    · rcases r with _ | r
      · obtain ⟨h1, h2⟩ := hzero rfl
        rw [h1, h2]
        refine .base (show st.nextAddr < st.nextAddr + 1 by omega) ?_
        rw [lookupA_cons, if_pos rfl]
      · refine .step (tyOf v1) st1.nextAddr v1
          (show st1.nextAddr < st1.nextAddr + 1 by omega) ?_ rfl ?_
        · rw [lookupA_cons, if_pos rfl]
        · refine chain_frame (hchain (by omega))
            (show st1.nextAddr ≤ st1.nextAddr + 1 by omega) ?_
          intro x hx
          rw [lookupA_cons, if_neg (by omega)]

theorem c5st_spec (r p : Nat) :
    (c5st r p).ctxs = [(0, ⟨none, [(0, ⟨none, some (.ref ⟨0, 0⟩ r), .idle⟩)]⟩)] ∧
    lookupA (c5st r p).heap r = some (.prim 0 p) ∧
    (c5st r p).nextAddr = r + 1 ∧ (c5st r p).calls = [] ∧
    (c5st r p).nextCtx = 1 := by
  obtain ⟨st', v, heq, hty, hctxs, hcalls, hnext, hna, hfr, hzero, hchain⟩ :=
    mkChain_spec 0 p r ⟨[], 0, [(0, ⟨none, []⟩)], 1, []⟩
  have hna' : st'.nextAddr = r := by simpa using hna
  have hder : derefN st'.heap (tyOf v).depth v = .prim 0 p := by
    rcases r with _ | r
    · obtain ⟨rfl, rfl⟩ := hzero rfl
      rfl
    · exact chain_derefN (hchain (by omega))
  have hc5 : c5st r p = register st' 0 (.value v) := by
    show (match mkChain 0 p ⟨[], 0, [(0, ⟨none, []⟩)], 1, []⟩ r with
          | (s, v) => register s 0 (.value v)) = _
    rw [heq]
  have hkey : normalizeKey (tyOf v) = 0 := by rw [hty]; rfl
  have hreg : register st' 0 (.value v)
      = putEntry ⟨(st'.nextAddr, .prim 0 p) :: st'.heap, st'.nextAddr + 1,
          st'.ctxs, st'.nextCtx, st'.calls⟩ 0 0
          ⟨none, some (.ref ⟨0, 0⟩ st'.nextAddr), .idle⟩ := by
    simp only [register, registerOne, normalizeValue, hder, alloc]
    rw [hkey]
    rfl
  have hctxs' : st'.ctxs = [(0, (⟨none, []⟩ : CtxData))] := hctxs
  rw [hc5, hreg]
  simp [putEntry, lookupCtx, hctxs', hna', setA, lookupA_cons, hcalls, hnext]

/-- Claim C5 (amended): for a type registered through any number `r` of
pointer levels, resolving it at every requested indirection depth up to 51
yields the same underlying data; and after injecting a function that
writes payload `q` through a pointer of any depth `1 ≤ d₁ ≤ 51`, every
subsequent resolution at every depth up to 51 observes `q`.  (Depths
beyond 51 are unreachable: the stored value carries one indirection and
the reshaping loop adds at most 50 more — see the counterexample.) -/
theorem c5_parts (r p d₁ q : Nat) (h1 : 1 ≤ d₁) (h2 : d₁ ≤ 51) :
    (∀ d, d ≤ 51 → ∃ s w, run 10 (.resolve 0 [] ⟨0, d⟩) (c5st r p) = .ok s (.one w) ∧
      tyOf w = ⟨0, d⟩ ∧ readP s w = some (0, p)) ∧
    (∃ s4, run 10 (.inject 0 [] none (.func (writerFn d₁ q))) (c5st r p)
        = .ok s4 (.many []) ∧
      ∀ d₂, d₂ ≤ 51 → ∃ s w, run 10 (.resolve 0 [] ⟨0, d₂⟩) s4 = .ok s (.one w) ∧
        tyOf w = ⟨0, d₂⟩ ∧ readP s w = some (0, q)) := by
  obtain ⟨hctxs, hheap, hnext, hcalls, hnctx⟩ := c5st_spec r p
  have hc : lookupCtx (c5st r p) 0
      = some ⟨none, [(0, ⟨none, some (.ref ⟨0, 0⟩ r), .idle⟩)]⟩ := by
    show lookupA (c5st r p).ctxs 0 = _
    rw [hctxs, lookupA_cons, if_pos rfl]
  have he : lookupA [(0, (⟨none, some (.ref ⟨0, 0⟩ r), .idle⟩ : Entry))] 0
      = some ⟨none, some (.ref ⟨0, 0⟩ r), .idle⟩ := by
    rw [lookupA_cons, if_pos rfl]
  have ha : r < (c5st r p).nextAddr := by rw [hnext]; omega
  constructor
  · intro d hd
    obtain ⟨s, w, hrun, hty, hreadP, _, _, _, _, _, _⟩ :=
      resolve_idle_value 9 (c5st r p) 0 0 d p r [] _ _ hc he rfl rfl rfl ha hheap hd
    exact ⟨s, w, hrun, hty, hreadP⟩
  · obtain ⟨st', w, hrun, htyw, hreadw, hchw, hctxw, hcallw, hnctxw, hlew, hfrw⟩ :=
      resolve_idle_value 7 (c5st r p) 0 0 d₁ p r [] _ _ hc he rfl rfl rfl ha hheap h2
    have hchain : Chain st'.heap st'.nextAddr 0 p r w := hchw h1
    have hlast : lastRef st'.heap (tyOf w).depth w = some (⟨0, 0⟩, r) :=
      chain_lastRef hchain
    have hctx4 : st'.ctxs
        = [(0, ⟨none, [(0, ⟨none, some (.ref ⟨0, 0⟩ r), .done⟩)]⟩)] := by
      rw [hctxw]
      simp [setEntry, hc, hctxs, setA]
    refine ⟨⟨setA st'.heap r (.prim 0 q), st'.nextAddr, st'.ctxs, st'.nextCtx,
      st'.calls ++ [8]⟩, ?_, ?_⟩
    · have e1 : run 10 (.inject 0 [] none (.func (writerFn d₁ q))) (c5st r p)
          = run 9 (.collect 0 [] (writerFn d₁ q) [] [⟨0, d₁⟩] 0) (c5st r p) := rfl
      have e2 : run 9 (.collect 0 [] (writerFn d₁ q) [] [⟨0, d₁⟩] 0) (c5st r p)
          = match run 8 (.resolve 0 [] ⟨0, d₁⟩) (c5st r p) with
            | .ok st1 (.one v) =>
              run 8 (.collect 0 [] (writerFn d₁ q) [v] [] 1) st1
            | .ok _ (.many _) => .stuck
            | .err st1 e =>
              match e with
              | .typeNotRegistered b _ => .err st1 (.typeNotRegistered b 1)
              | _ => .err st1 e
            | .deadlock => .deadlock
            | .timeout => .timeout
            | .stuck => .stuck := rfl
      rw [e1, e2, hrun]
      show run 8 (.collect 0 [] (writerFn d₁ q) [w] [] 1) st'
          = .ok ⟨setA st'.heap r (.prim 0 q), st'.nextAddr, st'.ctxs, st'.nextCtx,
              st'.calls ++ [8]⟩ (.many [])
      have e3 : run 8 (.collect 0 [] (writerFn d₁ q) [w] [] 1) st'
          = match callFn st' (writerFn d₁ q) [w] with
            | (st1, .error cause) => .err st1 (.panicInFunction cause)
            | (st1, .ok outs) => .ok st1 (.many outs) := rfl
      have e4 : callFn st' (writerFn d₁ q) [w]
          = (⟨setA st'.heap r (.prim 0 q), st'.nextAddr, st'.ctxs, st'.nextCtx,
              st'.calls ++ [8]⟩, Except.ok ([] : List GoVal)) := by
        show (match (match lastRef st'.heap (tyOf w).depth w with
                     | some (t, addr) =>
                       (writeH ⟨st'.heap, st'.nextAddr, st'.ctxs, st'.nextCtx,
                         st'.calls ++ [8]⟩ addr (.prim t.base q),
                        (Except.ok 0 : Except Nat Nat))
                     | none =>
                       ((⟨st'.heap, st'.nextAddr, st'.ctxs, st'.nextCtx,
                         st'.calls ++ [8]⟩ : St),
                        (Except.ok 0 : Except Nat Nat))) with
              | (st1, Except.error c) => (st1, Except.error c)
              | (st1, Except.ok _) => (st1, Except.ok ([] : List GoVal)))
            = ((⟨setA st'.heap r (.prim 0 q), st'.nextAddr, st'.ctxs, st'.nextCtx,
                st'.calls ++ [8]⟩ : St), Except.ok ([] : List GoVal))
        rw [hlast]
        rfl
      rw [e3, e4]
    · intro d₂ hd₂
      have heap4 : lookupA (setA st'.heap r (.prim 0 q)) r = some (.prim 0 q) := by
        rw [lookupA_setA, if_pos rfl, hfrw r ha, hheap]
        rfl
      have hc4 : lookupCtx (⟨setA st'.heap r (.prim 0 q), st'.nextAddr, st'.ctxs,
          st'.nextCtx, st'.calls ++ [8]⟩ : St) 0
          = some ⟨none, [(0, ⟨none, some (.ref ⟨0, 0⟩ r), .done⟩)]⟩ := by
        show lookupA st'.ctxs 0 = _
        rw [hctx4, lookupA_cons, if_pos rfl]
      have he4 : lookupA [(0, (⟨none, some (.ref ⟨0, 0⟩ r), .done⟩ : Entry))] 0
          = some ⟨none, some (.ref ⟨0, 0⟩ r), .done⟩ := by
        rw [lookupA_cons, if_pos rfl]
      have ha4 : r < st'.nextAddr := lt_of_lt_of_le ha hlew
      obtain ⟨s, w2, hrun2, hty2, hread2, _, _, _, _, _, _⟩ :=
        resolve_done 9 ⟨setA st'.heap r (.prim 0 q), st'.nextAddr, st'.ctxs,
          st'.nextCtx, st'.calls ++ [8]⟩ 0 0 d₂ q r [] _ _ hc4 he4 rfl rfl ha4
          heap4 hd₂
      exact ⟨s, w2, hrun2, hty2, hread2⟩

theorem notFound_run {key f : Nat} {st : St} {c : Nat} (h : NotFound key f st c) :
    ∀ (ch : List Nat) (d : Nat),
      run f (.resolve c ch ⟨key, d⟩) st = .err st (.typeNotRegistered key 0) := by
  induction h with
  | root hc hk hp =>
    intro ch d
    simp only [run, normalizeKey, hc, hk, hp]
  | step hc hk hp hnf ih =>
    intro ch d
    simp only [run, normalizeKey, hc, hk, hp]
    exact ih ch d

theorem collect_of_runArgs {c f : Nat} {st : St} {pre : List GoTy}
    {vs : List GoVal} {g : Nat} {st1 : St} (h : RunArgs c f st pre vs g st1) :
    ∀ (fn : GoFunc) (acc : List GoVal) (pos : Nat) (ps : List GoTy),
      run f (.collect c [] fn acc (pre ++ ps) pos) st
        = run g (.collect c [] fn (acc ++ vs) ps (pos + pre.length)) st1 := by
  induction h with
  | nil f st =>
    intro fn acc pos ps
    simp
  | @cons f st ty rest stm v vs g st2 hres hrest ih =>
    intro fn acc pos ps
    have e : run (f + 1) (.collect c [] fn acc (ty :: (rest ++ ps)) pos) st
        = match run f (.resolve c [] ty) st with
          | .ok stx (.one v) =>
            run f (.collect c [] fn (acc ++ [v]) (rest ++ ps) (pos + 1)) stx
          | .ok _ (.many _) => .stuck
          | .err stx e =>
            (match e with
             | .typeNotRegistered bb _ => .err stx (.typeNotRegistered bb (pos + 1))
             | _ => .err stx e)
          | .deadlock => .deadlock
          | .timeout => .timeout
          | .stuck => .stuck := rfl
    show run (f + 1) (.collect c [] fn acc (ty :: (rest ++ ps)) pos) st = _
    rw [e, hres]
    have e2 := ih fn (acc ++ [v]) (pos + 1) ps
    rw [show (acc ++ [v]) ++ vs = acc ++ v :: vs by simp] at e2
    rw [show pos + 1 + rest.length = pos + (rest.length + 1) by omega] at e2
    exact e2

/-- Claim C3 (amended): for every context and function, if the parameters
before position `p` all resolve successfully and the parameter at the
1-indexed position `p` has a type registered neither in the context nor in
any ancestor, then `TryInject` returns `TypeNotRegistered` carrying that
type's normalized identity and the position `p` (the first failing
position determines the error). -/
theorem c3_general (c f g' : Nat) (st st1 : St) (pre rest : List GoTy)
    (vs : List GoVal) (fid ub ud : Nat) (outs : List GoTy) (body : FnBody)
    (hpre : RunArgs c f st pre vs (g' + 1) st1)
    (hnf : NotFound ub g' st1 c) :
    tryInjectErr (f + 1) st c (.func ⟨fid, pre ++ ⟨ub, ud⟩ :: rest, outs, body⟩)
      = some (.typeNotRegistered ub (pre.length + 1)) := by
  have e1 : run (f + 1)
      (.inject c [] none (.func ⟨fid, pre ++ ⟨ub, ud⟩ :: rest, outs, body⟩)) st
      = run f (.collect c [] ⟨fid, pre ++ ⟨ub, ud⟩ :: rest, outs, body⟩ []
          (pre ++ ⟨ub, ud⟩ :: rest) 0) st := rfl
  have e2 := collect_of_runArgs hpre ⟨fid, pre ++ ⟨ub, ud⟩ :: rest, outs, body⟩
    [] 0 (⟨ub, ud⟩ :: rest)
  have e3 : run (g' + 1) (.collect c [] ⟨fid, pre ++ ⟨ub, ud⟩ :: rest, outs, body⟩
      ([] ++ vs) (⟨ub, ud⟩ :: rest) (0 + pre.length)) st1
      = match run g' (.resolve c [] ⟨ub, ud⟩) st1 with
        | .ok stx (.one v) =>
          run g' (.collect c [] ⟨fid, pre ++ ⟨ub, ud⟩ :: rest, outs, body⟩
            (([] ++ vs) ++ [v]) rest (0 + pre.length + 1)) stx
        | .ok _ (.many _) => .stuck
        | .err stx e =>
          (match e with
           | .typeNotRegistered bb _ =>
             .err stx (.typeNotRegistered bb (0 + pre.length + 1))
           | _ => .err stx e)
        | .deadlock => .deadlock
        | .timeout => .timeout
        | .stuck => .stuck := rfl
  have e4 : run (f + 1)
      (.inject c [] none (.func ⟨fid, pre ++ ⟨ub, ud⟩ :: rest, outs, body⟩)) st
      = .err st1 (.typeNotRegistered ub (0 + pre.length + 1)) := by
    rw [e1, e2, e3, notFound_run hnf [] ud]
  show (match run (f + 1)
      (.inject c [] none (.func ⟨fid, pre ++ ⟨ub, ud⟩ :: rest, outs, body⟩)) st with
    | .err _ e => some e
    | _ => none) = _
  rw [e4, Nat.zero_add]

/-- Claim C7: for every context and function whose parameters all resolve,
if the function panics when invoked, the panic does not unwind past
`TryInject`: it returns a `PanicInFunction` error carrying the original
panic value, and the strict entry point `Inject` converts the returned
error into a panic carrying that error's message. -/
theorem c7_general (c f g' : Nat) (st st1 : St) (params : List GoTy)
    (vs : List GoVal) (fid cause : Nat) (outs : List GoTy)
    (hpre : RunArgs c f st params vs (g' + 1) st1) :
    tryInjectErr (f + 1) st c (.func ⟨fid, params, outs, .panicWith cause⟩)
        = some (.panicInFunction cause) ∧
      injectPanic (f + 1) st c (.func ⟨fid, params, outs, .panicWith cause⟩)
        = some (errMsg (.panicInFunction cause)) := by
  have e1 : run (f + 1)
      (.inject c [] none (.func ⟨fid, params, outs, .panicWith cause⟩)) st
      = run f (.collect c [] ⟨fid, params, outs, .panicWith cause⟩ [] params 0) st :=
    rfl
  have e2 := collect_of_runArgs hpre ⟨fid, params, outs, .panicWith cause⟩ [] 0 []
  rw [List.append_nil] at e2
  have e3 : run (g' + 1) (.collect c [] ⟨fid, params, outs, .panicWith cause⟩
      ([] ++ vs) [] (0 + params.length)) st1
      = .err ⟨st1.heap, st1.nextAddr, st1.ctxs, st1.nextCtx, st1.calls ++ [fid]⟩
          (.panicInFunction cause) := rfl
  have e4 : run (f + 1)
      (.inject c [] none (.func ⟨fid, params, outs, .panicWith cause⟩)) st
      = .err ⟨st1.heap, st1.nextAddr, st1.ctxs, st1.nextCtx, st1.calls ++ [fid]⟩
          (.panicInFunction cause) := by
    rw [e1, e2, e3]
  have e5 : tryInjectErr (f + 1) st c (.func ⟨fid, params, outs, .panicWith cause⟩)
      = some (.panicInFunction cause) := by
    show (match run (f + 1)
        (.inject c [] none (.func ⟨fid, params, outs, .panicWith cause⟩)) st with
      | .err _ e => some e
      | _ => none) = _
    rw [e4]
  refine ⟨e5, ?_⟩
  show (tryInjectErr (f + 1) st c
      (.func ⟨fid, params, outs, .panicWith cause⟩)).map errMsg = _
  rw [e5]
  rfl

/-! ## State-shape preservation through the interpreter -/

theorem addLoop_preserve : ∀ (n : Nat) (st : St) (v : GoVal) (t : GoTy),
    (addLoop st v t n).1.ctxs = st.ctxs ∧ (addLoop st v t n).1.nextCtx = st.nextCtx := by
  intro n
  induction n with
  | zero => intro st v t; exact ⟨rfl, rfl⟩
  | succ n ih =>
    intro st v t
    have e : addLoop st v t (n + 1)
        = if tyOf (GoVal.ref (tyOf v) st.nextAddr) = t then
            (⟨(st.nextAddr, v) :: st.heap, st.nextAddr + 1, st.ctxs, st.nextCtx,
              st.calls⟩, some (GoVal.ref (tyOf v) st.nextAddr))
          else addLoop ⟨(st.nextAddr, v) :: st.heap, st.nextAddr + 1, st.ctxs,
            st.nextCtx, st.calls⟩ (GoVal.ref (tyOf v) st.nextAddr) t n := rfl
    rw [e]
    split
    · exact ⟨rfl, rfl⟩
    · exact ih _ _ _

theorem denorm_preserve (st : St) (v : GoVal) (t : GoTy) :
    (denormalizeValue st v t).1.ctxs = st.ctxs ∧
      (denormalizeValue st v t).1.nextCtx = st.nextCtx := by
  rw [denormalizeValue]
  split
  · exact ⟨rfl, rfl⟩
  · split
    · exact ⟨rfl, rfl⟩
    · rcases ha : addLoop st v t 50 with ⟨st2, res⟩
      have h2 := addLoop_preserve 50 st v t
      rw [ha] at h2
      rcases res with _ | w
      · exact h2
      · exact h2

theorem runBody_preserve (st : St) (args : List GoVal) (b : FnBody) :
    (runBody st args b).1.ctxs = st.ctxs ∧
      (runBody st args b).1.nextCtx = st.nextCtx := by
  cases b with
  | retConst p => exact ⟨rfl, rfl⟩
  | retArgPayload i =>
    show ((match readP st (args.getD i (.prim 0 0)) with
           | some (_, p) => (st, Except.ok p)
           | none => (st, Except.ok 0)).1.ctxs = st.ctxs) ∧
      ((match readP st (args.getD i (.prim 0 0)) with
        | some (_, p) => (st, Except.ok p)
        | none => (st, Except.ok 0)).1.nextCtx = st.nextCtx)
    rcases readP st (args.getD i (.prim 0 0)) with _ | ⟨_, _⟩
    · exact ⟨rfl, rfl⟩
    · exact ⟨rfl, rfl⟩
  | writeThroughArg i p =>
    show ((match lastRef st.heap (tyOf (args.getD i (.prim 0 0))).depth
            (args.getD i (.prim 0 0)) with
           | some (t, addr) => (writeH st addr (.prim t.base p), Except.ok 0)
           | none => (st, Except.ok 0)).1.ctxs = st.ctxs) ∧
      ((match lastRef st.heap (tyOf (args.getD i (.prim 0 0))).depth
            (args.getD i (.prim 0 0)) with
        | some (t, addr) => (writeH st addr (.prim t.base p), Except.ok 0)
        | none => (st, Except.ok 0)).1.nextCtx = st.nextCtx)
    rcases lastRef st.heap (tyOf (args.getD i (.prim 0 0))).depth
        (args.getD i (.prim 0 0)) with _ | ⟨_, _⟩
    · exact ⟨rfl, rfl⟩
    · exact ⟨rfl, rfl⟩
  | panicWith c => exact ⟨rfl, rfl⟩
  | noop => exact ⟨rfl, rfl⟩

theorem callFn_preserve (st : St) (fn : GoFunc) (args : List GoVal) :
    (callFn st fn args).1.ctxs = st.ctxs ∧
      (callFn st fn args).1.nextCtx = st.nextCtx := by
  have h := runBody_preserve ⟨st.heap, st.nextAddr, st.ctxs, st.nextCtx,
    st.calls ++ [fn.fid]⟩ args fn.body
  rw [callFn]
  rcases hr : runBody ⟨st.heap, st.nextAddr, st.ctxs, st.nextCtx,
      st.calls ++ [fn.fid]⟩ args fn.body with ⟨st1, res⟩
  rw [hr] at h
  rcases res with c | p
  · exact h
  · rcases fn.outs with _ | ⟨t, ts⟩
    · exact h
    · exact h

theorem presEq_refl (st : St) : PresEq st st :=
  fun _ cd h => ⟨cd, h, rfl, fun _ => rfl⟩

theorem presEq_trans {s1 s2 s3 : St} (h1 : PresEq s1 s2) (h2 : PresEq s2 s3) :
    PresEq s1 s3 := by
  intro c cd hc
  obtain ⟨cd2, hc2, hp2, hk2⟩ := h1 c cd hc
  obtain ⟨cd3, hc3, hp3, hk3⟩ := h2 c cd2 hc2
  exact ⟨cd3, hc3, hp3.trans hp2, fun k => (hk3 k).trans (hk2 k)⟩

theorem presEq_of_ctxs {st st' : St} (h : st'.ctxs = st.ctxs) : PresEq st st' := by
  intro c cd hc
  refine ⟨cd, ?_, rfl, fun _ => rfl⟩
  show lookupA st'.ctxs c = some cd
  rw [h]
  exact hc

theorem presEq_setEntry (st : St) (c : Nat) (k : Nat) (e : Entry) :
    PresEq st (setEntry st c k e) := by
  intro c' cd' hc'
  rcases hcc : lookupCtx st c with _ | cd
  · refine ⟨cd', ?_, rfl, fun _ => rfl⟩
    show lookupA (setEntry st c k e).ctxs c' = some cd'
    rw [setEntry, hcc]
    exact hc'
  · by_cases hceq : c' = c
    · subst hceq
      rw [hcc] at hc'
      obtain rfl : cd = cd' := Option.some.inj hc'
      refine ⟨⟨cd.parent, setA cd.store k e⟩, ?_, rfl, ?_⟩
      · show lookupA (setEntry st c' k e).ctxs c' = _
        rw [setEntry, hcc]
        show lookupA (setA st.ctxs c' _) c' = _
        rw [lookupA_setA, if_pos rfl]
        show (lookupA st.ctxs c').map _ = _
        rw [show lookupA st.ctxs c' = some cd from hcc]
        rfl
      · intro kk
        show (lookupA (setA cd.store k e) kk).isSome = (lookupA cd.store kk).isSome
        rw [lookupA_setA]
        by_cases hkk : kk = k
        · rw [if_pos hkk, hkk]
          cases hl2 : lookupA cd.store k
          · rfl
          · rfl
        · rw [if_neg hkk]
    · refine ⟨cd', ?_, rfl, fun _ => rfl⟩
      show lookupA (setEntry st c k e).ctxs c' = some cd'
      rw [setEntry, hcc]
      show lookupA (setA st.ctxs c _) c' = _
      rw [lookupA_setA, if_neg hceq]
      exact hc'

theorem run_pres : ∀ (fuel : Nat) (req : Req) (st st' : St),
    outSt (run fuel req st) = some st' → PresEq st st' := by
  intro fuel
  induction fuel with
  | zero =>
    intro req st st' h
    simp [run, outSt] at h
  | succ fuel ih =>
    intro req st st' h
    rcases req with ⟨c, ch, ty⟩ | ⟨c, ch, recv, item⟩ | ⟨c, ch, fn, acc, ps, pos⟩
    · simp only [run] at h
      rcases hc : lookupCtx st c with _ | cd
      · simp only [hc, outSt] at h
        exact Option.noConfusion h
      · simp only [hc] at h
        rcases hk : lookupA cd.store (normalizeKey ty) with _ | entry
        · simp only [hk] at h
          rcases hp : cd.parent with _ | par
          · simp only [hp, outSt] at h
            obtain rfl := Option.some.inj h
            exact presEq_refl st
          · simp only [hp] at h
            exact ih _ _ _ h
        · simp only [hk] at h
          rcases ho : entry.once with _ | _ | _
          · -- idle
            simp only [ho] at h
            rcases hm : entry.itemMaker with _ | pcfn
            · simp only [hm] at h
              rcases hi : entry.item with _ | iv
              · simp only [hi, outSt] at h
                exact Option.noConfusion h
              · simp only [hi, denormOut] at h
                rcases hden : denormalizeValue
                    (setEntry st c (normalizeKey ty) ⟨none, some iv, .done⟩)
                    iv ty with ⟨stD, res⟩
                simp only [hden] at h
                have hpres1 := presEq_setEntry st c (normalizeKey ty)
                  (⟨none, some iv, .done⟩ : Entry)
                have hpres2 : PresEq
                    (setEntry st c (normalizeKey ty) ⟨none, some iv, .done⟩)
                    stD := by
                  have h2 := (denorm_preserve
                    (setEntry st c (normalizeKey ty) ⟨none, some iv, .done⟩)
                    iv ty).1
                  rw [hden] at h2
                  exact presEq_of_ctxs h2
                rcases res with e | w <;> simp only [outSt] at h <;>
                  obtain rfl := Option.some.inj h <;>
                  exact presEq_trans hpres1 hpres2
            · obtain ⟨pc, pfn⟩ := pcfn
              simp only [hm] at h
              by_cases hmem : normalizeKey ty ∈ ch
              · rw [if_pos hmem] at h
                simp only [outSt] at h
                obtain rfl := Option.some.inj h
                exact presEq_setEntry st c (normalizeKey ty)
                  ⟨some (pc, pfn), entry.item, .done⟩
              · rw [if_neg hmem] at h
                rcases hrun : run fuel (.inject pc ch none (.func pfn))
                    (setEntry st c (normalizeKey ty)
                      ⟨some (pc, pfn), entry.item, .running⟩) with
                  ⟨st2, rv⟩ | ⟨st2, e2⟩ | _ | _ | _
                · simp only [hrun] at h
                  have hpres1 := presEq_setEntry st c (normalizeKey ty)
                    (⟨some (pc, pfn), entry.item, .running⟩ : Entry)
                  have hpres2 : PresEq (setEntry st c (normalizeKey ty)
                      ⟨some (pc, pfn), entry.item, .running⟩) st2 :=
                    ih _ _ _ (by rw [hrun]; rfl)
                  rcases rv with w | vs
                  · simp only [outSt] at h
                    exact Option.noConfusion h
                  · rcases vs with _ | ⟨v0, vrest⟩
                    · simp only [outSt] at h
                      exact Option.noConfusion h
                    · rcases hnv : normalizeValue st2 v0 with ⟨st3, nv⟩
                      simp only [hnv, denormOut] at h
                      have hpres3 : PresEq st2 st3 := by
                        have h2 : (normalizeValue st2 v0).1.ctxs = st2.ctxs := rfl
                        rw [hnv] at h2
                        exact presEq_of_ctxs h2
                      have hpres4 := presEq_setEntry st3 c (normalizeKey ty)
                        (⟨some (pc, pfn), some nv, .done⟩ : Entry)
                      rcases hden : denormalizeValue
                          (setEntry st3 c (normalizeKey ty)
                            ⟨some (pc, pfn), some nv, .done⟩) nv ty with ⟨stD, res⟩
                      simp only [hden] at h
                      have hpres5 : PresEq (setEntry st3 c (normalizeKey ty)
                          ⟨some (pc, pfn), some nv, .done⟩) stD := by
                        have h2 := (denorm_preserve (setEntry st3 c (normalizeKey ty)
                          ⟨some (pc, pfn), some nv, .done⟩) nv ty).1
                        rw [hden] at h2
                        exact presEq_of_ctxs h2
                      have hall : PresEq st stD :=
                        presEq_trans hpres1 (presEq_trans hpres2 (presEq_trans
                          hpres3 (presEq_trans hpres4 hpres5)))
                      rcases res with e | w <;> simp only [outSt] at h <;>
                        obtain rfl := Option.some.inj h <;> exact hall
                · simp only [hrun, outSt] at h
                  obtain rfl := Option.some.inj h
                  exact presEq_trans (presEq_setEntry st c (normalizeKey ty)
                    ⟨some (pc, pfn), entry.item, .running⟩)
                    (presEq_trans (ih _ _ _ (by rw [hrun]; rfl))
                      (presEq_setEntry st2 c (normalizeKey ty)
                        ⟨some (pc, pfn), entry.item, .done⟩))
                · simp only [hrun, outSt] at h
                  exact Option.noConfusion h
                · simp only [hrun, outSt] at h
                  exact Option.noConfusion h
                · simp only [hrun, outSt] at h
                  exact Option.noConfusion h
          · -- running
            simp only [ho, outSt] at h
            exact Option.noConfusion h
          · -- done
            simp only [ho] at h
            rcases hi : entry.item with _ | iv
            · simp only [hi, outSt] at h
              exact Option.noConfusion h
            · simp only [hi, denormOut] at h
              rcases hden : denormalizeValue st iv ty with ⟨stD, res⟩
              simp only [hden] at h
              have hpres : PresEq st stD := by
                have h2 := (denorm_preserve st iv ty).1
                rw [hden] at h2
                exact presEq_of_ctxs h2
              rcases res with e | w <;> simp only [outSt] at h <;>
                obtain rfl := Option.some.inj h <;> exact hpres
    · rcases item with v | fn
      · simp only [run, outSt] at h
        obtain rfl := Option.some.inj h
        exact presEq_refl st
      · simp only [run] at h
        exact ih _ _ _ h
    · rcases ps with _ | ⟨ty, rest⟩
      · simp only [run] at h
        rcases hcf : callFn st fn acc with ⟨st1, res⟩
        simp only [hcf] at h
        have hpres : PresEq st st1 := by
          have h2 := (callFn_preserve st fn acc).1
          rw [hcf] at h2
          exact presEq_of_ctxs h2
        rcases res with cse | outs <;> simp only [outSt] at h <;>
          obtain rfl := Option.some.inj h <;> exact hpres
      · simp only [run] at h
        rcases hres : run fuel (.resolve c ch ty) st with
          ⟨stx, rv⟩ | ⟨stx, e⟩ | _ | _ | _
        · simp only [hres] at h
          rcases rv with w | vs
          · have h1 : PresEq st stx := ih _ _ _ (by rw [hres]; rfl)
            have h2 : PresEq stx st' := ih _ _ _ h
            exact presEq_trans h1 h2
          · simp only [outSt] at h
            exact Option.noConfusion h
        · simp only [hres] at h
          have h1 : PresEq st stx := ih _ _ _ (by rw [hres]; rfl)
          rcases e with _ | ⟨bb, pp⟩ | _ | _ | _ <;>
            simp only [outSt] at h <;> obtain rfl := Option.some.inj h <;> exact h1
        · simp only [hres, outSt] at h
          exact Option.noConfusion h
        · simp only [hres, outSt] at h
          exact Option.noConfusion h
        · simp only [hres, outSt] at h
          exact Option.noConfusion h

theorem isSome_false_none {α : Type} {o : Option α} (h : o.isSome = false) :
    o = none := by
  cases o with
  | none => rfl
  | some x => simp at h

theorem isSome_true_some {α : Type} {o : Option α} (h : o.isSome = true) :
    ∃ x, o = some x := by
  cases o with
  | none => simp at h
  | some x => exact ⟨x, rfl⟩

theorem callFn_shape (st : St) (fn : GoFunc) (args : List GoVal) :
    ∀ st1 outs, callFn st fn args = (st1, .ok outs) →
      outs = [] ∨ ∃ bb qq, outs = [GoVal.prim bb qq] := by
  intro st1 outs h
  rw [callFn] at h
  rcases hr : runBody ⟨st.heap, st.nextAddr, st.ctxs, st.nextCtx,
      st.calls ++ [fn.fid]⟩ args fn.body with ⟨stB, res⟩
  rw [hr] at h
  rcases res with cse | p
  · simp at h
  · rcases ho : fn.outs with _ | ⟨t, ts⟩ <;> rw [ho] at h <;>
      simp only [Prod.mk.injEq, Except.ok.injEq] at h
    · left
      exact h.2.symm
    · right
      exact ⟨t.base, p, h.2.symm⟩

theorem run_many_shape : ∀ (fuel : Nat) (req : Req) (st st' : St) (vs : List GoVal),
    run fuel req st = .ok st' (.many vs) →
    vs = [] ∨ ∃ bb qq, vs = [GoVal.prim bb qq] := by
  intro fuel
  induction fuel with
  | zero =>
    intro req st st' vs h
    simp [run] at h
  | succ fuel ih =>
    intro req st st' vs h
    rcases req with ⟨c, ch, ty⟩ | ⟨c, ch, recv, item⟩ | ⟨c, ch, fn, acc, ps, pos⟩
    · simp only [run] at h
      rcases hc : lookupCtx st c with _ | cd
      · simp only [hc] at h
        exact Out.noConfusion h
      · simp only [hc] at h
        rcases hk : lookupA cd.store (normalizeKey ty) with _ | entry
        · simp only [hk] at h
          rcases hp : cd.parent with _ | par
          · simp only [hp] at h
            exact Out.noConfusion h
          · simp only [hp] at h
            exact ih _ _ _ _ h
        · simp only [hk] at h
          rcases ho : entry.once with _ | _ | _
          · simp only [ho] at h
            rcases hm : entry.itemMaker with _ | pcfn
            · simp only [hm] at h
              rcases hi : entry.item with _ | iv
              · simp only [hi] at h
                exact Out.noConfusion h
              · simp only [hi, denormOut] at h
                rcases hden : denormalizeValue
                    (setEntry st c (normalizeKey ty) ⟨none, some iv, .done⟩)
                    iv ty with ⟨stD, res⟩
                simp only [hden] at h
                rcases res with e | w <;> simp at h
            · obtain ⟨pc, pfn⟩ := pcfn
              simp only [hm] at h
              by_cases hmem : normalizeKey ty ∈ ch
              · rw [if_pos hmem] at h
                simp at h
              · rw [if_neg hmem] at h
                rcases hrun : run fuel (.inject pc ch none (.func pfn))
                    (setEntry st c (normalizeKey ty)
                      ⟨some (pc, pfn), entry.item, .running⟩) with
                  ⟨st2, rv⟩ | ⟨st2, e2⟩ | _ | _ | _ <;> simp only [hrun] at h
                · rcases rv with w | vls
                  · simp at h
                  · rcases vls with _ | ⟨v0, vrest⟩
                    · simp at h
                    · rcases hnv : normalizeValue st2 v0 with ⟨st3, nv⟩
                      simp only [hnv, denormOut] at h
                      rcases hden : denormalizeValue
                          (setEntry st3 c (normalizeKey ty)
                            ⟨some (pc, pfn), some nv, .done⟩) nv ty with ⟨stD, res⟩
                      simp only [hden] at h
                      rcases res with e | w <;> simp at h
                · simp at h
                · simp at h
                · simp at h
                · simp at h
          · simp only [ho] at h
            exact Out.noConfusion h
          · simp only [ho] at h
            rcases hi : entry.item with _ | iv
            · simp only [hi] at h
              exact Out.noConfusion h
            · simp only [hi, denormOut] at h
              rcases hden : denormalizeValue st iv ty with ⟨stD, res⟩
              simp only [hden] at h
              rcases res with e | w <;> simp at h
    · rcases item with v | fn
      · simp [run] at h
      · simp only [run] at h
        exact ih _ _ _ _ h
    · rcases ps with _ | ⟨ty, rest⟩
      · simp only [run] at h
        rcases hcf : callFn st fn acc with ⟨st1, res⟩
        simp only [hcf] at h
        rcases res with cse | outs
        · simp at h
        · simp only [Out.ok.injEq, RVal.many.injEq] at h
          obtain ⟨rfl, rfl⟩ := h
          exact callFn_shape st fn acc _ _ hcf
      · simp only [run] at h
        rcases hres : run fuel (.resolve c ch ty) st with
          ⟨stx, rv⟩ | ⟨stx, e⟩ | _ | _ | _ <;> simp only [hres] at h
        · rcases rv with w | vls
          · exact ih _ _ _ _ h
          · simp at h
        · rcases e with _ | ⟨bb, pp⟩ | _ | _ | _ <;> simp at h
        · simp at h
        · simp at h
        · simp at h

theorem stWF_item {st : St} (hwf : stWF st = true) {c : Nat} {cd : CtxData}
    {k : Nat} {e : Entry} {v : GoVal}
    (hc : lookupCtx st c = some cd) (he : lookupA cd.store k = some e)
    (hi : e.item = some v) :
    ∃ b a q, v = .ref ⟨b, 0⟩ a ∧ a < st.nextAddr ∧
      lookupA st.heap a = some (.prim b q) := by
  have hall := List.all_eq_true.mp hwf _ (lookupA_mem hc)
  have hall2 := List.all_eq_true.mp hall _ (lookupA_mem he)
  simp only [hi] at hall2
  rcases v with ⟨b0, p0⟩ | ⟨t, a⟩
  · simp [canonVb] at hall2
  · obtain ⟨tb, td⟩ := t
    simp only [canonVb, Bool.and_eq_true, decide_eq_true_eq] at hall2
    obtain ⟨⟨hd0, hlt⟩, hmatch⟩ := hall2
    rcases hl : lookupA st.heap a with _ | w
    · rw [hl] at hmatch
      simp at hmatch
    · rw [hl] at hmatch
      rcases w with ⟨b2, q2⟩ | ⟨t2, a2⟩
      · simp only [decide_eq_true_eq] at hmatch
        subst hd0
        subst hmatch
        exact ⟨b2, a, q2, rfl, hlt, hl⟩
      · simp at hmatch

theorem setEntry_heap (st : St) (c k : Nat) (e : Entry) :
    (setEntry st c k e).heap = st.heap := by
  rcases h : lookupCtx st c <;> simp [setEntry, h]

theorem setEntry_nextAddr (st : St) (c k : Nat) (e : Entry) :
    (setEntry st c k e).nextAddr = st.nextAddr := by
  rcases h : lookupCtx st c <;> simp [setEntry, h]

theorem setEntry_calls (st : St) (c k : Nat) (e : Entry) :
    (setEntry st c k e).calls = st.calls := by
  rcases h : lookupCtx st c <;> simp [setEntry, h]

theorem setEntry_ctxs_found {st : St} {c : Nat} {cd : CtxData}
    (hc : lookupCtx st c = some cd) (k : Nat) (e : Entry) :
    (setEntry st c k e).ctxs = setA st.ctxs c ⟨cd.parent, setA cd.store k e⟩ := by
  simp [setEntry, hc]

theorem lookupCtx_setA_found {st : St} {c : Nat} {cd : CtxData} (cd' : CtxData)
    (hc : lookupCtx st c = some cd) :
    lookupA (setA st.ctxs c cd') c = some cd' := by
  rw [lookupA_setA, if_pos rfl]
  show (lookupA st.ctxs c).map _ = _
  rw [show lookupA st.ctxs c = some cd from hc]
  rfl

theorem lookupA_setA_found {l : List (Nat × Entry)} {k : Nat} {e0 : Entry}
    (hk : lookupA l k = some e0) (e : Entry) :
    lookupA (setA l k e) k = some e := by
  rw [lookupA_setA, if_pos rfl, hk]
  rfl

/-- Claim C2: in a well-formed state, after any successful resolution of a
type, resolving the same type again in the same context succeeds, executes
no function at all (the call log is unchanged, so in particular the
producer does not run again), and yields the same underlying stored
value. -/
theorem resolve_again : ∀ (fuel : Nat) (st : St) (c : Nat) (ch ch' : List Nat)
    (ty : GoTy) (st₁ : St) (v₁ : GoVal),
    stWF st = true →
    run fuel (.resolve c ch ty) st = .ok st₁ (.one v₁) →
    ∃ st₂ v₂, run fuel (.resolve c ch' ty) st₁ = .ok st₂ (.one v₂) ∧
      st₂.calls = st₁.calls ∧ readP st₂ v₂ = readP st₁ v₁ := by
  intro fuel
  induction fuel with
  | zero =>
    intro st c ch ch' ty st₁ v₁ hwf h
    simp [run] at h
  | succ fuel ih =>
    intro st c ch ch' ty st₁ v₁ hwf h
    obtain ⟨tb, td⟩ := ty
    simp only [run, normalizeKey] at h
    rcases hc : lookupCtx st c with _ | cd
    · simp only [hc] at h
      exact Out.noConfusion h
    · simp only [hc] at h
      rcases hk : lookupA cd.store tb with _ | entry
      · -- delegated to the parent
        simp only [hk] at h
        rcases hp : cd.parent with _ | par
        · simp only [hp] at h
          exact Out.noConfusion h
        · simp only [hp] at h
          have hpres : PresEq st st₁ :=
            run_pres fuel _ st st₁ (by rw [h]; rfl)
          obtain ⟨st₂, v₂, hrun2, hcalls2, hread2⟩ :=
            ih st par ch ch' ⟨tb, td⟩ st₁ v₁ hwf h
          obtain ⟨cd₁, hc₁, hpar₁, hkey₁⟩ := hpres c cd hc
          have hk₁ : lookupA cd₁.store tb = none := by
            apply isSome_false_none
            rw [hkey₁, hk]
            rfl
          refine ⟨st₂, v₂, ?_, hcalls2, hread2⟩
          simp only [run, normalizeKey, hc₁, hk₁, hpar₁, hp]
          exact hrun2
      · simp only [hk] at h
        rcases ho : entry.once with _ | _ | _
        · -- idle entry
          simp only [ho] at h
          rcases hm : entry.itemMaker with _ | pcfn
          · -- realized value, Once not yet fired
            simp only [hm] at h
            rcases hi : entry.item with _ | iv
            · simp only [hi] at h
              exact Out.noConfusion h
            · simp only [hi, denormOut] at h
              obtain ⟨b, a, q, rfl, ha, hl⟩ := stWF_item hwf hc hk hi
              have hSEh := setEntry_heap st c tb (⟨none, some (.ref ⟨b, 0⟩ a), .done⟩ : Entry)
              have hSEn := setEntry_nextAddr st c tb (⟨none, some (.ref ⟨b, 0⟩ a), .done⟩ : Entry)
              have hSEc := setEntry_calls st c tb (⟨none, some (.ref ⟨b, 0⟩ a), .done⟩ : Entry)
              by_cases hyes : tb = b ∧ td ≤ 51
              · obtain ⟨heq, htd⟩ := hyes
                subst heq
                obtain ⟨stD, w, heqD, htyD, _, _, hctxsD, hcallsD, _, hleD, hfrD, hreadD⟩ :=
                  denorm_canon (setEntry st c tb ⟨none, some (.ref ⟨tb, 0⟩ a), .done⟩)
                    tb q a td (by rw [hSEn]; exact ha) (by rw [hSEh]; exact hl) htd
                simp only [heqD, Out.ok.injEq, RVal.one.injEq] at h
                obtain ⟨rfl, rfl⟩ := h
                -- the second resolution finds the realized, fired entry
                have hc₁ : lookupCtx stD c
                    = some ⟨cd.parent, setA cd.store tb ⟨none, some (.ref ⟨tb, 0⟩ a), .done⟩⟩ := by
                  show lookupA stD.ctxs c = _
                  rw [hctxsD, setEntry_ctxs_found hc]
                  exact lookupCtx_setA_found _ hc
                have he₁ : lookupA (setA cd.store tb ⟨none, some (.ref ⟨tb, 0⟩ a), .done⟩) tb
                    = some ⟨none, some (.ref ⟨tb, 0⟩ a), .done⟩ := lookupA_setA_found hk _
                obtain ⟨st₂, w₂, hrun₂, hty₂, hread₂, _, _, hcalls₂, _, _, _⟩ :=
                  resolve_done fuel stD c tb td q a ch' _ _ hc₁ he₁ rfl rfl
                    (by rw [hSEn] at hleD; exact lt_of_lt_of_le ha hleD)
                    (by rw [hfrD a (by rw [hSEn]; exact ha), hSEh]; exact hl) htd
                exact ⟨st₂, w₂, hrun₂, hcalls₂, hread₂.trans hreadD.symm⟩
              · have hor : tb ≠ b ∨ 52 ≤ td := by
                  by_cases h1 : tb = b
                  · right
                    by_contra h2
                    push_neg at h2
                    exact hyes ⟨h1, by omega⟩
                  · exact Or.inl h1
                obtain ⟨stE, hfail⟩ := denorm_canon_fail
                  (setEntry st c tb ⟨none, some (.ref ⟨b, 0⟩ a), .done⟩) b q a
                  ⟨tb, td⟩ (by rw [hSEh]; exact hl) hor
                simp only [hfail] at h
                exact Out.noConfusion h
          · -- producer entry
            obtain ⟨pc, pfn⟩ := pcfn
            simp only [hm] at h
            by_cases hmem : tb ∈ ch
            · rw [if_pos hmem] at h
              exact Out.noConfusion h
            · rw [if_neg hmem] at h
              rcases hrunp : run fuel (.inject pc ch none (.func pfn))
                  (setEntry st c tb ⟨some (pc, pfn), entry.item, .running⟩) with
                ⟨st2, rv⟩ | ⟨st2, e2⟩ | _ | _ | _ <;> simp only [hrunp] at h
              · rcases rv with w | vls
                · exact Out.noConfusion h
                · rcases vls with _ | ⟨v0, vrest⟩
                  · exact Out.noConfusion h
                  · rcases run_many_shape fuel _ _ _ _ hrunp with hsh | ⟨bb, qq, hsh⟩
                    · exact List.noConfusion hsh
                    · obtain ⟨rfl, rfl⟩ : v0 = GoVal.prim bb qq ∧ vrest = [] := by
                        simp only [List.cons.injEq] at hsh
                        exact hsh
                      have hnveq : normalizeValue st2 (.prim bb qq)
                          = (⟨(st2.nextAddr, .prim bb qq) :: st2.heap, st2.nextAddr + 1,
                              st2.ctxs, st2.nextCtx, st2.calls⟩,
                             .ref ⟨bb, 0⟩ st2.nextAddr) := rfl
                      simp only [hnveq, denormOut] at h
                      -- the fresh canonical cell
                      have hSE4h := setEntry_heap
                        ⟨(st2.nextAddr, .prim bb qq) :: st2.heap, st2.nextAddr + 1,
                          st2.ctxs, st2.nextCtx, st2.calls⟩ c tb
                        (⟨some (pc, pfn), some (.ref ⟨bb, 0⟩ st2.nextAddr), .done⟩ : Entry)
                      have hSE4n := setEntry_nextAddr
                        ⟨(st2.nextAddr, .prim bb qq) :: st2.heap, st2.nextAddr + 1,
                          st2.ctxs, st2.nextCtx, st2.calls⟩ c tb
                        (⟨some (pc, pfn), some (.ref ⟨bb, 0⟩ st2.nextAddr), .done⟩ : Entry)
                      have hl4 : lookupA (setEntry
                          ⟨(st2.nextAddr, .prim bb qq) :: st2.heap, st2.nextAddr + 1,
                            st2.ctxs, st2.nextCtx, st2.calls⟩ c tb
                          ⟨some (pc, pfn), some (.ref ⟨bb, 0⟩ st2.nextAddr), .done⟩).heap
                          st2.nextAddr = some (.prim bb qq) := by
                        rw [hSE4h]
                        show lookupA ((st2.nextAddr, GoVal.prim bb qq) :: st2.heap)
                          st2.nextAddr = _
                        rw [lookupA_cons, if_pos rfl]
                      have ha4 : st2.nextAddr < (setEntry
                          ⟨(st2.nextAddr, .prim bb qq) :: st2.heap, st2.nextAddr + 1,
                            st2.ctxs, st2.nextCtx, st2.calls⟩ c tb
                          ⟨some (pc, pfn), some (.ref ⟨bb, 0⟩ st2.nextAddr), .done⟩).nextAddr := by
                        rw [hSE4n]
                        exact Nat.lt_succ_self _
                      by_cases hyes : tb = bb ∧ td ≤ 51
                      · obtain ⟨heq, htd⟩ := hyes
                        subst heq
                        obtain ⟨stD, w, heqD, htyD, _, _, hctxsD, hcallsD, _, hleD, hfrD, hreadD⟩ :=
                          denorm_canon _ tb qq st2.nextAddr td ha4 hl4 htd
                        simp only [heqD, Out.ok.injEq, RVal.one.injEq] at h
                        obtain ⟨rfl, rfl⟩ := h
                        -- locate the entry in st2 via shape preservation
                        have hcR : lookupCtx (setEntry st c tb
                            ⟨some (pc, pfn), entry.item, .running⟩) c
                            = some ⟨cd.parent, setA cd.store tb
                                ⟨some (pc, pfn), entry.item, .running⟩⟩ := by
                          show lookupA (setEntry st c tb
                            ⟨some (pc, pfn), entry.item, .running⟩).ctxs c = _
                          rw [setEntry_ctxs_found hc]
                          exact lookupCtx_setA_found _ hc
                        have hpres2 : PresEq (setEntry st c tb
                            ⟨some (pc, pfn), entry.item, .running⟩) st2 :=
                          run_pres fuel _ _ _ (by rw [hrunp]; rfl)
                        obtain ⟨cd₃, hc₃, hpar₃, hkey₃⟩ := hpres2 c _ hcR
                        obtain ⟨e₃, he₃⟩ : ∃ e₃, lookupA cd₃.store tb = some e₃ := by
                          apply isSome_true_some
                          rw [hkey₃ tb, lookupA_setA_found hk]
                          rfl
                        have hc₁ : lookupCtx stD c = some ⟨cd₃.parent, setA cd₃.store tb
                            ⟨some (pc, pfn), some (.ref ⟨tb, 0⟩ st2.nextAddr), .done⟩⟩ := by
                          show lookupA stD.ctxs c = _
                          rw [hctxsD, setEntry_ctxs_found (show lookupCtx
                            ⟨(st2.nextAddr, .prim tb qq) :: st2.heap, st2.nextAddr + 1,
                              st2.ctxs, st2.nextCtx, st2.calls⟩ c = some cd₃ from hc₃)]
                          exact lookupCtx_setA_found _ hc₃
                        have he₁ := lookupA_setA_found he₃
                          (⟨some (pc, pfn), some (.ref ⟨tb, 0⟩ st2.nextAddr), .done⟩ : Entry)
                        obtain ⟨st₂, w₂, hrun₂, hty₂, hread₂, _, _, hcalls₂, _, _, _⟩ :=
                          resolve_done fuel stD c tb td qq st2.nextAddr ch' _ _ hc₁ he₁
                            rfl rfl (by rw [hSE4n] at hleD; omega)
                            (by
                              rw [hfrD st2.nextAddr
                                (by rw [hSE4n]; exact Nat.lt_succ_self _)]
                              exact hl4) htd
                        exact ⟨st₂, w₂, hrun₂, hcalls₂, hread₂.trans hreadD.symm⟩
                      · have hor : tb ≠ bb ∨ 52 ≤ td := by
                          by_cases h1 : tb = bb
                          · right
                            by_contra h2
                            push_neg at h2
                            exact hyes ⟨h1, by omega⟩
                          · exact Or.inl h1
                        obtain ⟨stE, hfail⟩ := denorm_canon_fail _ bb qq st2.nextAddr
                          ⟨tb, td⟩ hl4 hor
                        simp only [hfail] at h
                        exact Out.noConfusion h
              · exact Out.noConfusion h
              · exact Out.noConfusion h
              · exact Out.noConfusion h
              · exact Out.noConfusion h
        · -- running: deadlock
          simp only [ho] at h
          exact Out.noConfusion h
        · -- done entry
          simp only [ho] at h
          rcases hi : entry.item with _ | iv
          · simp only [hi] at h
            exact Out.noConfusion h
          · simp only [hi, denormOut] at h
            obtain ⟨b, a, q, rfl, ha, hl⟩ := stWF_item hwf hc hk hi
            by_cases hyes : tb = b ∧ td ≤ 51
            · obtain ⟨heq, htd⟩ := hyes
              subst heq
              obtain ⟨stD, w, heqD, htyD, _, _, hctxsD, hcallsD, _, hleD, hfrD, hreadD⟩ :=
                denorm_canon st tb q a td ha hl htd
              simp only [heqD, Out.ok.injEq, RVal.one.injEq] at h
              obtain ⟨rfl, rfl⟩ := h
              have hc₁ : lookupCtx stD c = some cd := by
                show lookupA stD.ctxs c = _
                rw [hctxsD]
                exact hc
              obtain ⟨st₂, w₂, hrun₂, hty₂, hread₂, _, _, hcalls₂, _, _, _⟩ :=
                resolve_done fuel stD c tb td q a ch' _ _ hc₁ hk ho
                  (by rw [hi]) (lt_of_lt_of_le ha hleD)
                  (by rw [hfrD a ha]; exact hl) htd
              exact ⟨st₂, w₂, hrun₂, hcalls₂, hread₂.trans hreadD.symm⟩
            · have hor : tb ≠ b ∨ 52 ≤ td := by
                by_cases h1 : tb = b
                · right
                  by_contra h2
                  push_neg at h2
                  exact hyes ⟨h1, by omega⟩
                · exact Or.inl h1
              obtain ⟨stE, hfail⟩ := denorm_canon_fail st b q a ⟨tb, td⟩ hl hor
              simp only [hfail] at h
              exact Out.noConfusion h

theorem registerOne_panics (st : St) (c : Nat) (item : GoItem) :
    registerOne st c item = none ↔ ∃ fn, item = .func fn ∧ fn.outs.length ≠ 1 := by
  match item with
  | .value v =>
    simp only [registerOne]
    constructor
    · intro h
      exact Option.noConfusion h
    · rintro ⟨fn, hfn, _⟩
      exact GoItem.noConfusion hfn
  | .func fn =>
    match houts : fn.outs with
    | [] =>
      simp only [registerOne, houts]
      constructor
      · intro _
        exact ⟨fn, rfl, by rw [houts]; simp⟩
      · intro _
        trivial
    | [o] =>
      simp only [registerOne, houts]
      constructor
      · intro h
        exact Option.noConfusion h
      · rintro ⟨fn', hfn', hlen⟩
        cases hfn'
        rw [houts] at hlen
        simp at hlen
    | o1 :: o2 :: os =>
      simp only [registerOne, houts]
      constructor
      · intro _
        exact ⟨fn, rfl, by rw [houts]; simp⟩
      · intro _
        trivial

/-! ## Claim theorems: counterexamples, remaining claims and witnesses -/

/-- Claim C1 (code evaluated at the failing input): with the mutually
dependent producers for bases `0` and `1` registered, `TryInject` of a
function requiring base `0` deadlocks for every sufficient fuel — the
chain passed to `itemMaker` is never extended, so the nested resolution
re-enters the entry's running `sync.Once.Do` — and in particular never
returns the `CircularInject` error the claim requires. -/
theorem claim_c1_cycle_deadlocks (m : Nat) :
    run (m + 9) (.inject 0 [] none (.func needA)) c1st = .deadlock ∧
      tryInjectErr (m + 9) c1st 0 (.func needA) = none :=
  ⟨rfl, rfl⟩

/-- Claim C2 witness: on the memoization scenario (`Foo = 100`, producer
`makeBar`), the resolution that follows a completed first resolution
executes nothing and returns the same value. -/
theorem claim_c2_witness :
    ∃ st₂ v₂, run 20 (.resolve 0 [] ⟨1, 0⟩) pstAfter = .ok st₂ (.one v₂) ∧
      st₂.calls = pstAfter.calls ∧
      readP st₂ v₂ = readP pstAfter (.prim 1 100) :=
  resolve_again 20 pst 0 [] [] ⟨1, 0⟩ pstAfter (.prim 1 100) (by decide) (by decide)

/-- Claim C3 counterexample: with both parameter types unregistered, the
claim instantiated at the 2nd parameter predicts
`TypeNotRegistered{type 1, position 2}`, but `TryInject` reports the first
failing position: `TypeNotRegistered{type 0, position 1}`. -/
theorem claim_c3_counterexample :
    tryInjectErr 10 (newCtx st0).1 0 (.func ⟨4, [⟨0, 0⟩, ⟨1, 0⟩], [], .noop⟩)
        = some (.typeNotRegistered 0 1) ∧
      (Err.typeNotRegistered 0 1) ≠ (Err.typeNotRegistered 1 2) :=
  ⟨rfl, by decide⟩

/-- Claim C3 witness: base `0` is registered, bases `1` and `2` are not;
requesting `(base 0, base 1, base 2)` fails with the type of the first
unregistered parameter and its position `2`. -/
theorem claim_c3_witness :
    tryInjectErr 4 c3stR 0 (.func ⟨4, [⟨0, 0⟩, ⟨1, 0⟩, ⟨2, 0⟩], [], .noop⟩)
      = some (.typeNotRegistered 1 2) :=
  c3_general 0 3 1 c3stR c3stDone [⟨0, 0⟩] [⟨2, 0⟩] [.prim 0 5] 4 1 0 [] .noop
    (RunArgs.cons
      (show run 2 (.resolve 0 [] ⟨0, 0⟩) c3stR
          = .ok c3stDone (.one (.prim 0 5)) by decide)
      (RunArgs.nil 2 c3stDone))
    (NotFound.root
      (show lookupCtx c3stDone 0
          = some ⟨none, [(0, ⟨none, some (.ref ⟨0, 0⟩ 0), .done⟩)]⟩ by decide)
      (by decide) (by decide))

/-- Claim C4: a child context resolving a type registered on both contexts
returns the child's value; a type registered only on the parent returns
the parent's value; and the parent resolving a child-only type fails with
`TypeNotRegistered` (the parent never observes child registrations). -/
theorem claim_c4_parent_child (pf pg cf ph : Nat) :
    (∃ s, run 10 (.resolve 1 [] ⟨0, 0⟩) (c4st pf pg cf ph)
        = .ok s (.one (.prim 0 cf))) ∧
    (∃ s, run 10 (.resolve 1 [] ⟨1, 0⟩) (c4st pf pg cf ph)
        = .ok s (.one (.prim 1 pg))) ∧
    run 10 (.resolve 0 [] ⟨2, 0⟩) (c4st pf pg cf ph)
      = .err (c4st pf pg cf ph) (.typeNotRegistered 2 0) :=
  ⟨⟨_, rfl⟩, ⟨_, rfl⟩, rfl⟩

/-- Claim C5 counterexample: injecting a function that requests the
registered base `0` at indirection depth 52 fails with a denormalization
error instead of yielding the underlying data, refuting the claim at
"any indirection depth". -/
theorem claim_c5_counterexample :
    tryInjectErr 10 (c5st 0 5) 0 (.func ⟨8, [⟨0, 52⟩], [], .noop⟩)
      = some (.denormalize ⟨0, 1⟩ ⟨0, 52⟩) := rfl

/-- Claim C5 witness: a value registered through two pointer levels,
mutated through a single-level pointer, is observed with the new payload
at (for instance) depth 3. -/
theorem claim_c5_witness :
    ∃ s4, run 10 (.inject 0 [] none (.func (writerFn 1 9))) (c5st 2 5)
        = .ok s4 (.many []) ∧
      ∀ d₂, d₂ ≤ 51 → ∃ s w, run 10 (.resolve 0 [] ⟨0, d₂⟩) s4 = .ok s (.one w) ∧
        tyOf w = ⟨0, d₂⟩ ∧ readP s w = some (0, 9) :=
  (c5_parts 2 5 1 9 (by decide) (by decide)).2

/-- Claim C6: registering a second item under an already-used normalized
key unconditionally replaces the earlier entry: the later registration
alone determines the resolved value and whether a producer runs (the call
log shows the overwritten producer never executes). -/
theorem claim_c6_overwrite (p1 p2 : Nat) :
    (∃ s, run 10 (.resolve 0 [] ⟨0, 0⟩) (c6vv p1 p2) = .ok s (.one (.prim 0 p2))) ∧
    (∃ s, run 10 (.resolve 0 [] ⟨0, 0⟩) (c6vp p1 p2) = .ok s (.one (.prim 0 p2)) ∧
      s.calls = [6]) ∧
    (∃ s, run 10 (.resolve 0 [] ⟨0, 0⟩) (c6pv p1 p2) = .ok s (.one (.prim 0 p2)) ∧
      s.calls = []) ∧
    (∃ s, run 10 (.resolve 0 [] ⟨0, 0⟩) (c6pp p1 p2) = .ok s (.one (.prim 0 p2)) ∧
      s.calls = [7]) :=
  ⟨⟨_, rfl⟩, ⟨_, rfl, rfl⟩, ⟨_, rfl, rfl⟩, ⟨_, rfl, rfl⟩⟩

/-- Claim C7 witness: a function whose single (resolvable) parameter is
base `0` and whose body panics with cause `99`. -/
theorem claim_c7_witness :
    tryInjectErr 4 (c7st 3) 0 (.func ⟨9, [⟨0, 0⟩], [], .panicWith 99⟩)
        = some (.panicInFunction 99) ∧
      injectPanic 4 (c7st 3) 0 (.func ⟨9, [⟨0, 0⟩], [], .panicWith 99⟩)
        = some (errMsg (.panicInFunction 99)) :=
  c7_general 0 3 1 (c7st 3) c7stDone [⟨0, 0⟩] [.prim 0 3] 9 99 []
    (RunArgs.cons
      (show run 2 (.resolve 0 [] ⟨0, 0⟩) (c7st 3)
          = .ok c7stDone (.one (.prim 0 3)) by decide)
      (RunArgs.nil 2 c7stDone))

/-- Claim C8 counterexample: for a stored (canonical, one-indirection)
entry value and a same-base target of indirection depth 52 — a target for
which a consistent reshaping exists mathematically — `denormalizeValue`
returns an error, refuting the claim as universally stated. -/
theorem claim_c8_counterexample :
    (denormalizeValue ⟨[(0, .prim 0 5)], 1, [], 0, []⟩
        (.ref ⟨0, 0⟩ 0) ⟨0, 52⟩).2
      = .error (.denormalize ⟨0, 1⟩ ⟨0, 52⟩) := rfl

/-- Claim C8 (amended): reshaping a realized entry value (always exactly
one indirection onto a live cell) to any same-base target type of
indirection depth at most 51 succeeds, returning a value of exactly the
requested type with the same underlying data, never an error. -/
theorem claim_c8_denormalize (st : St) (b p a d : Nat) (ha : a < st.nextAddr)
    (hl : lookupA st.heap a = some (.prim b p)) (hd : d ≤ 51) :
    ∃ st' w, denormalizeValue st (.ref ⟨b, 0⟩ a) ⟨b, d⟩ = (st', .ok w) ∧
      tyOf w = ⟨b, d⟩ ∧ readP st' w = some (b, p) := by
  obtain ⟨st', w, h1, h2, _, _, _, _, _, _, _, h3⟩ := denorm_canon st b p a d ha hl hd
  exact ⟨st', w, h1, h2, h3⟩

/-- Claim C8 witness: reshaping the canonical value for base `0`,
payload `7` to depth 3. -/
theorem claim_c8_witness :
    ∃ st' w, denormalizeValue ⟨[(0, .prim 0 7)], 1, [], 0, []⟩
        (.ref ⟨0, 0⟩ 0) ⟨0, 3⟩ = (st', .ok w) ∧
      tyOf w = ⟨0, 3⟩ ∧ readP st' w = some (0, 7) :=
  claim_c8_denormalize ⟨[(0, .prim 0 7)], 1, [], 0, []⟩ 0 7 0 3
    (by decide) (by decide) (by decide)

/-- Claim C9: `Register` panics exactly when an argument is a function
whose number of results is not one; a function with exactly one result is
stored as a pending producer (capturing its registration context) under
its result's normalized type key, with no realized value. -/
theorem claim_c9_register (st : St) (c : Nat) (cd : CtxData)
    (hc : lookupCtx st c = some cd) :
    (∀ item, registerOne st c item = none ↔
      ∃ fn, item = .func fn ∧ fn.outs.length ≠ 1) ∧
    (∀ fn o, fn.outs = [o] →
      ∃ st' cd', registerOne st c (.func fn) = some st' ∧
        lookupCtx st' c = some cd' ∧
        lookupA cd'.store (normalizeKey o) = some ⟨some (c, fn), none, .idle⟩) := by
  constructor
  · intro item
    exact registerOne_panics st c item
  · intro fn o ho
    refine ⟨putEntry st c (normalizeKey o) ⟨some (c, fn), none, .idle⟩,
      ⟨cd.parent, (normalizeKey o, (⟨some (c, fn), none, .idle⟩ : Entry))
        :: cd.store⟩, ?_, ?_, ?_⟩
    · show registerOne st c (.func fn) = _
      simp only [registerOne, ho]
    · show lookupA (putEntry st c (normalizeKey o)
        ⟨some (c, fn), none, .idle⟩).ctxs c = _
      rw [putEntry, hc]
      exact lookupCtx_setA_found _ hc
    · rw [lookupA_cons, if_pos rfl]

/-- Claim C9 witness: registering a two-result function panics; registering
a one-result producer stores a pending entry under its result key. -/
theorem claim_c9_witness :
    registerOne (newCtx st0).1 0 (.func ⟨1, [], [⟨0, 0⟩, ⟨1, 0⟩], .noop⟩) = none ∧
    ∃ st' cd', registerOne (newCtx st0).1 0 (.func (mkProd 6 7)) = some st' ∧
      lookupCtx st' 0 = some cd' ∧
      lookupA cd'.store 0 = some ⟨some (0, mkProd 6 7), none, .idle⟩ :=
  ⟨((claim_c9_register (newCtx st0).1 0 ⟨none, []⟩ (by decide)).1 _).mpr
      ⟨⟨1, [], [⟨0, 0⟩, ⟨1, 0⟩], .noop⟩, rfl, by decide⟩,
    (claim_c9_register (newCtx st0).1 0 ⟨none, []⟩ (by decide)).2 (mkProd 6 7)
      ⟨0, 0⟩ rfl⟩

/-- Claim C10: a producer registered on the parent resolves its own
parameters against the parent (its registration context), not against the
child that initiated the resolution: the child shadows base `0` with
`ct`, yet the producer's result carries the parent's `pt`; the shadow is
real, since the child resolves base `0` to `ct` itself. -/
theorem claim_c10_registration_context (pt ct : Nat) :
    (∃ s, run 20 (.resolve 1 [] ⟨1, 0⟩) (c10st pt ct) = .ok s (.one (.prim 1 pt))) ∧
    (∃ s, run 20 (.resolve 1 [] ⟨0, 0⟩) (c10st pt ct) = .ok s (.one (.prim 0 ct))) :=
  ⟨⟨_, rfl⟩, ⟨_, rfl⟩⟩

end Depends
